import Mathlib

/-!
Verification development for MicroIni (micro_ini.h / micro_ini.c)

Shallow embedding of the MicroIni streaming INI parser.  Text buffers are
modelled as `List Char` (the characters before the terminating NUL), the
input stream as a list of characters together with an end-of-file indicator
flag (mirroring the `FILE`/`feof` contract the reader and eof callbacks must
conform to), and the consumer/error callbacks as an event trace.

Reads of buffer bytes that lie beyond the written string (which the C code
can perform, e.g. `line[len - 1]` in `prv_micro_ini_parse_line` when `len`
exceeds the string length, or `line[-1]` in the multi-line check when the
whole buffer was whitespace) are modelled explicitly: the byte at the index
of the NUL terminator reads as `'\x00'`, and any byte beyond that (an
indeterminate stack byte in C) is modelled by an arbitrary parameter `junk`
threaded through the model.
-/

/-- The two quote characters, written via code points. -/
def dquote : Char := Char.ofNat 34

def squote : Char := Char.ofNat 39

/-- `isspace` from `<ctype.h>` restricted to unsigned char arguments in the C
locale: space and the five control characters 0x09..0x0D. -/
def cIsSpace (c : Char) : Bool :=
  c = ' ' || (9 ≤ c.toNat && c.toNat ≤ 13)

/-- `prv_micro_ini_strstrip`: remove leading and trailing whitespace of a
string in place (the surviving region is shifted to the front; as a value,
the result is just the region between the first and last non-space bytes). -/
def prv_micro_ini_strstrip (l : List Char) : List Char :=
  ((l.dropWhile cIsSpace).reverse.dropWhile cIsSpace).reverse

/-- The trailing-whitespace trim performed by the read loop
(`while((len >= 0) && isspace(line[len])) { line[len] = '\0'; --len; }`). -/
def trimTrailing (l : List Char) : List Char :=
  (l.reverse.dropWhile cIsSpace).reverse

/-- Reading a byte of the line buffer at index `i` when the written string is
`l`: in range it is the string's byte, at `l.length` it is the NUL
terminator, beyond that it is an indeterminate byte `junk`. -/
def bufGet (l : List Char) (i : Nat) (junk : Char) : Char :=
  if i < l.length then l.getD i junk
  else if i = l.length then Char.ofNat 0
  else junk

/-- The shared `"%[^=] = "`-shaped head of the four key/value `sscanf`
formats: the `%[^=]` conversion captures one or more characters up to the
first `'='` (an empty capture is a matching failure), the space directive
skips whitespace, and the literal `'='` must match.  Returns the key capture
and the input after the `'='`. -/
def scanKeyEq (l : List Char) : Option (List Char × List Char) :=
  let key := l.takeWhile (fun c => ¬ c = '=')
  if key.isEmpty then none
  else
    match (l.dropWhile (fun c => ¬ c = '=')).dropWhile cIsSpace with
    | c :: rest => if c = '=' then some (key, rest) else none
    | [] => none

/-- `sscanf(line, "%[^=] = \"%[^\"]\"", key, value) == 2` (and the
single-quote variant, via `q`): after the `'='`, whitespace is skipped, the
opening quote must match and `%[^q]` must capture at least one character.
The trailing quote literal in the format sits after the last conversion, so
its success does not affect the returned count of 2. -/
def scanQuotedValue (q : Char) (l : List Char) : Option (List Char × List Char) :=
  match scanKeyEq l with
  | none => none
  | some (key, rest) =>
    match rest.dropWhile cIsSpace with
    | c :: r2 =>
      if c = q then
        let v := r2.takeWhile (fun x => ¬ x = q)
        if v.isEmpty then none else some (key, v)
      else none
    | [] => none

/-- `sscanf(line, "%[^=] = %[^;#]", key, value) == 2`. -/
def scanUnquotedValue (l : List Char) : Option (List Char × List Char) :=
  match scanKeyEq l with
  | none => none
  | some (key, rest) =>
    let v := (rest.dropWhile cIsSpace).takeWhile (fun c => ¬ c = ';' ∧ ¬ c = '#')
    if v.isEmpty then none else some (key, v)

/-- `sscanf(line, "%[^=] = %[;#]", key, value) == 2`. -/
def scanCommentValue (l : List Char) : Option (List Char × List Char) :=
  match scanKeyEq l with
  | none => none
  | some (key, rest) =>
    let v := (rest.dropWhile cIsSpace).takeWhile (fun c => c = ';' ∨ c = '#')
    if v.isEmpty then none else some (key, v)

/-- `sscanf(line, "%[^=] %[=]", key, value) == 2`: `%[^=]` capture, a
whitespace skip, then `%[=]` capturing a non-empty run of `'='`. -/
def scanKeyEqOnly (l : List Char) : Option (List Char × List Char) :=
  let key := l.takeWhile (fun c => ¬ c = '=')
  if key.isEmpty then none
  else
    let r := (l.dropWhile (fun c => ¬ c = '=')).dropWhile cIsSpace
    let eqs := r.takeWhile (fun c => c = '=')
    if eqs.isEmpty then none else some (key, eqs)

/-- `sscanf(line, "[%[^]]", section)`: literal `'['`, then `%[^]]` capturing
one or more characters up to the first `']'`.  The C code never checks this
call's return value; on a matching failure (empty capture) the section
buffer is left untouched. -/
def scanSectionName (l : List Char) : Option (List Char) :=
  match l with
  | c :: rest =>
    if c = '[' then
      let cap := rest.takeWhile (fun x => ¬ x = ']')
      if cap.isEmpty then none else some cap
    else none
  | [] => none

/-- The `LineStatus` enum (`LINE_SECTION` is called `sect` because `section`
is a Lean keyword). -/
inductive LineStatus where
  | unprocessed
  | empty
  | error
  | comment
  | sect
  | value
  deriving DecidableEq, Repr

/-- Result of `prv_micro_ini_parse_line`: the returned status together with
the contents of the `section`, `key` and `value` output buffers after the
call (only the buffers the status designates carry meaningful data; the
section buffer is threaded through because it persists across lines). -/
structure ParsedLine where
  status : LineStatus
  sect : List Char
  key : List Char
  val : List Char
  deriving DecidableEq, Repr

/-- The ordered key/value pattern cascade of `prv_micro_ini_parse_line`
(lines 145-188 of micro_ini.c): quoted patterns first (with the empty-quote
normalization applied to the stripped value), then the unquoted pattern,
then the two bare/comment-only patterns (which force an empty value), and
finally the syntax-error fallthrough. -/
def parseValueCascade (line : List Char) (sect0 : List Char) : ParsedLine :=
  match scanQuotedValue dquote line <|> scanQuotedValue squote line with
  | some (k, v) =>
    let k := prv_micro_ini_strstrip k
    let v := prv_micro_ini_strstrip v
    let v := if v = [dquote, dquote] ∨ v = [squote, squote] then [] else v
    ⟨.value, sect0, k, v⟩
  | none =>
    match scanUnquotedValue line with
    | some (k, v) =>
      ⟨.value, sect0, prv_micro_ini_strstrip k, prv_micro_ini_strstrip v⟩
    | none =>
      match scanCommentValue line <|> scanKeyEqOnly line with
      | some (k, _) => ⟨.value, sect0, prv_micro_ini_strstrip k, []⟩
      | none => ⟨.error, sect0, [], []⟩

/-- `prv_micro_ini_parse_line(line, len, section, key, value)`.  `line` is
the NUL-terminated string starting at the caller's `start` pointer; `len` is
the length argument (which the caller can pass larger than the string, in
which case `line[len - 1]` reads past the string: see `bufGet`). -/
def prv_micro_ini_parse_line (line : List Char) (len : Nat) (sect0 : List Char)
    (junk : Char) : ParsedLine :=
  if len = 0 then
    ⟨.empty, sect0, [], []⟩
  else if bufGet line 0 junk = '#' ∨ bufGet line 0 junk = ';' then
    ⟨.comment, sect0, [], []⟩
  else if bufGet line 0 junk = '[' ∧ bufGet line (len - 1) junk = ']' then
    match scanSectionName line with
    | some cap => ⟨.sect, prv_micro_ini_strstrip cap, [], []⟩
    | none => ⟨.sect, prv_micro_ini_strstrip sect0, [], []⟩
  else
    parseValueCascade line sect0

/-- `MICRO_INI_MAX_LINE_LENGTH`. -/
def MICRO_INI_MAX_LINE_LENGTH : Nat := 512

def MICRO_INI_SUCCESS : Int := 0

def MICRO_INI_ERROR_INVALID_FILE_OBJECT : Int := -1

def MICRO_INI_ERROR_INVALID_STREAM_OBJECT : Int := -2

def MICRO_INI_ERROR_INVALID_HANDLER_CALLBACK : Int := -3

def MICRO_INI_ERROR_INVALID_READER_CALLBACK : Int := -4

def MICRO_INI_ERROR_INVALID_EOF_CALLBACK : Int := -5

def MICRO_INI_ERROR_BUFFER_OVERFLOW : Int := -6

def MICRO_INI_FLAG_BOM : Nat := 1

def MICRO_INI_FLAG_MULTILINE : Nat := 2

def MICRO_INI_FLAG_STOP_ON_FIRST_ERROR : Nat := 4

/-- `flags & flag` as a truth value. -/
def flagSet (flags flag : Nat) : Bool := decide (flags &&& flag ≠ 0)

/-- The abstract input source: the characters not yet consumed plus the
end-of-file indicator that `feof` reports (set once a read has attempted to
go past the end of the data). -/
structure MStream where
  data : List Char
  eofFlag : Bool
  deriving DecidableEq, Repr

/-- Reading up to `cap` characters `fgets`-style: stop after a newline, when
`cap` characters have been stored, or at end of data (which sets the
end-of-file indicator).  Returns the chunk read, the remaining data, and
whether end-of-file was hit during this read. -/
def fgetsTake : Nat → List Char → List Char × List Char × Bool
  | 0, rest => ([], rest, false)
  | _ + 1, [] => ([], [], true)
  | k + 1, c :: rest =>
    if c = '\n' then ([c], rest, false)
    else
      let r := fgetsTake k rest
      (c :: r.1, r.2.1, r.2.2)

/-- The reader callback (`fgets(buf, n, stream)`): `none` models the NULL
return (end of data with nothing read); otherwise at most `n - 1` characters
are stored, reading stops after a newline. -/
def fgetsModel (n : Nat) (st : MStream) : Option (List Char × MStream) :=
  if st.data.isEmpty then none
  else
    let r := fgetsTake (n - 1) st.data
    some (r.1, ⟨r.2.1, st.eofFlag || r.2.2⟩)

/-- One consumer- or error-callback invocation, in order. -/
inductive Event where
  | value (sect key val : List Char)
  | error (line : List Char) (lineno : Nat)
  deriving DecidableEq, Repr

def isErrEvent : Event → Bool
  | .error _ _ => true
  | .value _ _ _ => false

/-- Number of error-callback invocations in a trace. -/
def countErrors (evs : List Event) : Nat := evs.countP isErrEvent

/-- The loop-local state of `micro_ini_load_stream`: the `line` buffer
contents, the continuation cursor `last`, the 1-based line counter, the
`firstLine` flag, the accumulated error count, the `section` buffer
contents, and the input stream. -/
structure LoopState where
  line : List Char
  last : Nat
  lineno : Nat
  firstLine : Bool
  numErrors : Nat
  sect : List Char
  stream : MStream
  deriving DecidableEq, Repr

/-- Model-level configuration: the `flags` argument, whether the optional
error callback was supplied, and the indeterminate-byte parameter (see the
file header). -/
structure IniConfig where
  flags : Nat
  hasErrorCb : Bool
  junk : Char
  deriving DecidableEq, Repr

/-- Outcome of one iteration of the `while` loop. -/
inductive StepResult where
  | eofStop
  | halt (ret : Int) (ev : List Event) (s' : LoopState)
  | next (ev : List Event) (s' : LoopState)
  deriving DecidableEq, Repr

/-- Whether the buffer starts with the 3-byte UTF-8 byte-order mark
(`start[0] == 0xEF && start[1] == 0xBB && start[2] == 0xBF`, reads past the
string modelled by `bufGet`). -/
def bomAt (l : List Char) (junk : Char) : Bool :=
  bufGet l 0 junk = Char.ofNat 0xEF && bufGet l 1 junk = Char.ofNat 0xBB &&
    bufGet l 2 junk = Char.ofNat 0xBF

/-- The leading-whitespace trim
(`while((len >= 0) && isspace(*start)) { ++start; --len; }`): walks the
string from `start` while `len` (which counts buffer-absolute positions) is
non-negative and the current character is whitespace. -/
def leadTrim : Int → List Char → Int × List Char
  | len, [] => (len, [])
  | len, c :: rest =>
    if 0 ≤ len ∧ cIsSpace c then leadTrim (len - 1) rest else (len, c :: rest)

/-- The dispatch `switch` at the bottom of the read loop (lines 367-400 of
micro_ini.c), applied to the classification result `pl` of the current
logical line; `line2` is the raw buffer content handed to the error
callback, `lineno1` the current line number and `stream1` the stream after
the read. -/
def microIniDispatch (cfg : IniConfig) (s : LoopState) (line2 : List Char)
    (lineno1 : Nat) (stream1 : MStream) (pl : ParsedLine) : StepResult :=
  match pl.status with
  | .value =>
    .next [Event.value pl.sect pl.key pl.val]
      ⟨[], 0, lineno1, false, s.numErrors, pl.sect, stream1⟩
  | .error =>
    let ev := if cfg.hasErrorCb then [Event.error line2 lineno1] else []
    if flagSet cfg.flags MICRO_INI_FLAG_STOP_ON_FIRST_ERROR then
      .halt ((s.numErrors + 1 : Nat) : Int) ev
        ⟨line2, 0, lineno1, false, s.numErrors + 1, pl.sect, stream1⟩
    else
      .next ev ⟨[], 0, lineno1, false, s.numErrors + 1, pl.sect, stream1⟩
  | _ =>
    .next [] ⟨[], 0, lineno1, false, s.numErrors, pl.sect, stream1⟩

/-- One iteration of the read loop of `micro_ini_load_stream` (lines
299-404 of micro_ini.c), from the `readerCallback` call to the bottom of the
loop body. -/
def microIniStep (cfg : IniConfig) (s : LoopState) : StepResult :=
  match fgetsModel (MICRO_INI_MAX_LINE_LENGTH - s.last) s.stream with
  | none => .eofStop
  | some (chunk, stream1) =>
    let line1 := s.line.take s.last ++ chunk
    let lineno1 := s.lineno + 1
    let startOff : Nat :=
      if s.firstLine && flagSet cfg.flags MICRO_INI_FLAG_BOM && bomAt line1 cfg.junk
      then 3 else 0
    if (line1.length : Int) - 1 ≤ 0 then
      .next [] { s with line := line1, lineno := lineno1, stream := stream1 }
    else if ¬ bufGet line1 (line1.length - 1) cfg.junk = '\n' ∧ stream1.eofFlag = false then
      .halt MICRO_INI_ERROR_BUFFER_OVERFLOW []
        { s with line := line1, lineno := lineno1, stream := stream1 }
    else
      let line2 := trimTrailing line1
      if line2.getLastD cfg.junk = '\\' ∧ flagSet cfg.flags MICRO_INI_FLAG_MULTILINE then
        .next [] { s with line := line2, last := line2.length - 1,
                          lineno := lineno1, stream := stream1 }
      else
        let p := leadTrim ((line2.length : Int) - 1) (line2.drop startOff)
        let len4 : Nat := if p.1 < 0 then 0 else p.1.toNat + 1
        microIniDispatch cfg s line2 lineno1 stream1
          (prv_micro_ini_parse_line p.2 len4 s.sect cfg.junk)

/-- Result of a whole `micro_ini_load_stream` call: the return value, the
callback trace, the number of reader-callback invocations, and the final
loop state. -/
structure LoopOut where
  ret : Int
  events : List Event
  reads : Nat
  final : LoopState
  deriving DecidableEq, Repr

/-- The read loop, fuel-indexed (the fuel is an upper bound on the number of
iterations; `micro_ini_load_stream` supplies `data.length + 1`, which always
suffices because every iteration consumes at least one character of data).
Running out of fuel returns the same shape as end of input. -/
def microIniLoop (cfg : IniConfig) : Nat → LoopState → LoopOut
  | 0, s => ⟨(s.numErrors : Int), [], 0, s⟩
  | fuel + 1, s =>
    match microIniStep cfg s with
    | .eofStop => ⟨(s.numErrors : Int), [], 1, s⟩
    | .halt r ev s' => ⟨r, ev, 1, s'⟩
    | .next ev s' =>
      let out := microIniLoop cfg fuel s'
      ⟨out.ret, ev ++ out.events, out.reads + 1, out.final⟩

/-- The initial loop state of `micro_ini_load_stream` for input `st`. -/
def initState (st : MStream) : LoopState := ⟨[], 0, 0, true, 0, [], st⟩

/-- `micro_ini_load_stream`.  The four leading booleans model the
non-nullness of `pStream`, `handlerCallback`, `readerCallback` and
`eofCallback` respectively. -/
def micro_ini_load_stream (hasStream hasHandler hasReader hasEof : Bool)
    (cfg : IniConfig) (st : MStream) : LoopOut :=
  if !hasStream then ⟨MICRO_INI_ERROR_INVALID_STREAM_OBJECT, [], 0, initState st⟩
  else if !hasHandler then ⟨MICRO_INI_ERROR_INVALID_HANDLER_CALLBACK, [], 0, initState st⟩
  else if !hasReader then ⟨MICRO_INI_ERROR_INVALID_READER_CALLBACK, [], 0, initState st⟩
  else if !hasEof then ⟨MICRO_INI_ERROR_INVALID_EOF_CALLBACK, [], 0, initState st⟩
  else microIniLoop cfg (st.data.length + 1) (initState st)

/-!
Claim theorems
-/

/-- C1: the claim says `key=""` and `key=''` deliver an empty value (the
empty-quote pair normalized away).  On the code, `key=""`/`key=''` are
matched by the unquoted `"%[^=] = %[^;#]"` pattern, whose branch lacks the
empty-quote normalization (that check sits only in the quoted branch), so
the literal two-quote string is delivered; `key=`, `key=;`, `key=#` do
deliver the empty value.  This evaluates the code at the failing inputs. -/
theorem C1_empty_quote_pair_kept_literal :
    prv_micro_ini_parse_line ("key=".toList ++ [dquote, dquote]) 6 [] (Char.ofNat 0) =
      ⟨.value, [], "key".toList, [dquote, dquote]⟩ ∧
    prv_micro_ini_parse_line ("key=".toList ++ [squote, squote]) 6 [] (Char.ofNat 0) =
      ⟨.value, [], "key".toList, [squote, squote]⟩ ∧
    prv_micro_ini_parse_line "key=".toList 4 [] (Char.ofNat 0) =
      ⟨.value, [], "key".toList, []⟩ ∧
    prv_micro_ini_parse_line "key=;".toList 5 [] (Char.ofNat 0) =
      ⟨.value, [], "key".toList, []⟩ ∧
    prv_micro_ini_parse_line "key=#".toList 5 [] (Char.ofNat 0) =
      ⟨.value, [], "key".toList, []⟩ ∧
    (micro_ini_load_stream true true true true ⟨0, true, Char.ofNat 0⟩
        ⟨"key=".toList ++ [dquote, dquote] ++ ['\n'], false⟩).events =
      [Event.value [] "key".toList [dquote, dquote]] ∧
    [dquote, dquote] ≠ ([] : List Char) := by
  decide

/-- C4 counterexample: with the multi-line flag, the logical line assembled
from the two physical lines `a\` and `b` is malformed; the error callback
receives line number 2 (the last physical line of the continuation), not 1
(the first), contradicting the claim's line-number part. -/
theorem C4_counterexample_lineno_is_last_physical_line :
    (micro_ini_load_stream true true true true ⟨MICRO_INI_FLAG_MULTILINE, true, Char.ofNat 0⟩
        ⟨['a', '\\', '\n', 'b', '\n'], false⟩).events = [Event.error ['a', 'b'] 2] ∧
    Event.error ['a', 'b'] 2 ≠ Event.error ['a', 'b'] 1 := by
  decide

/-- C5 counterexample: a `[]` line has first character `[` and last `]`, so
it is classified as a section header, but `sscanf("[%[^]]")` cannot capture
the empty text between the brackets and leaves the section buffer
untouched: after `[a]` then `[]`, the value line `k=v` is still dispatched
with section `a`, not with the empty string the claim requires. -/
theorem C5_counterexample_empty_brackets_keep_old_section :
    (micro_ini_load_stream true true true true ⟨0, true, Char.ofNat 0⟩
        ⟨"[a]\n[]\nk=v\n".toList, false⟩).events = [Event.value ['a'] ['k'] ['v']] ∧
    prv_micro_ini_parse_line ['[', ']'] 2 ['a'] (Char.ofNat 0) = ⟨.sect, ['a'], [], []⟩ ∧
    (['a'] : List Char) ≠ [] := by
  decide

/-- C6: the four precondition checks of `micro_ini_load_stream` run before
any reading, in the order stream handle, consumer callback, reader
callback, eof callback, returning the distinct codes -2, -3, -4, -5; no
reader call, no callback invocation and no other work happens (zero reads,
empty trace, untouched state). -/
theorem C6_precondition_checks :
    ∀ (h r e : Bool) (cfg : IniConfig) (st : MStream),
      micro_ini_load_stream false h r e cfg st =
        ⟨MICRO_INI_ERROR_INVALID_STREAM_OBJECT, [], 0, initState st⟩ ∧
      micro_ini_load_stream true false r e cfg st =
        ⟨MICRO_INI_ERROR_INVALID_HANDLER_CALLBACK, [], 0, initState st⟩ ∧
      micro_ini_load_stream true true false e cfg st =
        ⟨MICRO_INI_ERROR_INVALID_READER_CALLBACK, [], 0, initState st⟩ ∧
      micro_ini_load_stream true true true false cfg st =
        ⟨MICRO_INI_ERROR_INVALID_EOF_CALLBACK, [], 0, initState st⟩ ∧
      MICRO_INI_ERROR_INVALID_STREAM_OBJECT = -2 ∧
      MICRO_INI_ERROR_INVALID_HANDLER_CALLBACK = -3 ∧
      MICRO_INI_ERROR_INVALID_READER_CALLBACK = -4 ∧
      MICRO_INI_ERROR_INVALID_EOF_CALLBACK = -5 :=
  fun _ _ _ _ _ => ⟨rfl, rfl, rfl, rfl, rfl, rfl, rfl, rfl⟩

theorem microIniDispatch_cases (cfg : IniConfig) (s : LoopState) (line2 : List Char)
    (lineno1 : Nat) (stream1 : MStream) (pl : ParsedLine)
    (hcb : cfg.hasErrorCb = true) :
    (∃ ev s', microIniDispatch cfg s line2 lineno1 stream1 pl =
        .halt ((s'.numErrors : Nat) : Int) ev s' ∧
      s'.numErrors = s.numErrors + countErrors ev ∧ countErrors ev = 1) ∨
    (∃ ev s', microIniDispatch cfg s line2 lineno1 stream1 pl = .next ev s' ∧
      s'.numErrors = s.numErrors + countErrors ev) := by
  unfold microIniDispatch
  cases hst : pl.status
  case value =>
    exact Or.inr ⟨_, _, rfl, by simp [countErrors, isErrEvent]⟩
  case error =>
    by_cases hstop : flagSet cfg.flags MICRO_INI_FLAG_STOP_ON_FIRST_ERROR = true
    · refine Or.inl ⟨[Event.error line2 lineno1],
        ⟨line2, 0, lineno1, false, s.numErrors + 1, pl.sect, stream1⟩, ?_, ?_, ?_⟩
      · simp [hcb, hstop]
      · simp [countErrors, isErrEvent]
      · simp [countErrors, isErrEvent]
    · refine Or.inr ⟨[Event.error line2 lineno1],
        ⟨[], 0, lineno1, false, s.numErrors + 1, pl.sect, stream1⟩, ?_, ?_⟩
      · simp [hcb, hstop]
      · simp [countErrors, isErrEvent]
  all_goals exact Or.inr ⟨_, _, rfl, by simp [countErrors]⟩

theorem microIniStep_cases (cfg : IniConfig) (s : LoopState)
    (hcb : cfg.hasErrorCb = true) :
    microIniStep cfg s = .eofStop ∨
    (∃ s', microIniStep cfg s = .halt MICRO_INI_ERROR_BUFFER_OVERFLOW [] s') ∨
    (∃ ev s', microIniStep cfg s = .halt ((s'.numErrors : Nat) : Int) ev s' ∧
      s'.numErrors = s.numErrors + countErrors ev ∧ countErrors ev = 1) ∨
    (∃ ev s', microIniStep cfg s = .next ev s' ∧
      s'.numErrors = s.numErrors + countErrors ev) := by
  unfold microIniStep
  cases hfg : fgetsModel (MICRO_INI_MAX_LINE_LENGTH - s.last) s.stream with
  | none => exact Or.inl rfl
  | some p =>
    obtain ⟨chunk, stream1⟩ := p
    simp only
    split
    · exact Or.inr (Or.inr (Or.inr ⟨[], _, rfl, by simp [countErrors]⟩))
    · split
      · exact Or.inr (Or.inl ⟨_, rfl⟩)
      · split
        · exact Or.inr (Or.inr (Or.inr ⟨[], _, rfl, by simp [countErrors]⟩))
        · rcases microIniDispatch_cases cfg s _ _ _ _ hcb with ⟨ev, s', h, h1, h2⟩ | ⟨ev, s', h, h1⟩
          · exact Or.inr (Or.inr (Or.inl ⟨ev, s', h, h1, h2⟩))
          · exact Or.inr (Or.inr (Or.inr ⟨ev, s', h, h1⟩))

/-- Return-value invariant of the read loop when the error callback is
present: the loop either aborts with the overflow code or returns the
starting error count plus the number of error events it emitted. -/
theorem microIniLoop_ret (cfg : IniConfig) (hcb : cfg.hasErrorCb = true) :
    ∀ (fuel : Nat) (s : LoopState),
      (microIniLoop cfg fuel s).ret = MICRO_INI_ERROR_BUFFER_OVERFLOW ∨
      (microIniLoop cfg fuel s).ret =
        ((s.numErrors + countErrors (microIniLoop cfg fuel s).events : Nat) : Int) := by
  intro fuel
  induction fuel with
  | zero => intro s; right; simp [microIniLoop, countErrors]
  | succ n ih =>
    intro s
    rcases microIniStep_cases cfg s hcb with h | ⟨s', h⟩ | ⟨ev, s', h, h1, _⟩ | ⟨ev, s', h, h1⟩
    · right; simp [microIniLoop, h, countErrors]
    · left; simp [microIniLoop, h]
    · right; simp only [microIniLoop, h]
      rw [h1]
    · rcases ih s' with h' | h'
      · left; simp [microIniLoop, h, h']
      · right
        simp only [microIniLoop, h]
        rw [h', h1, countErrors, countErrors, countErrors, List.countP_append]
        push_cast
        ring

/-- C2 -/
theorem C2_return_contract (cfg : IniConfig) (st : MStream) (hcb : cfg.hasErrorCb = true) :
    ((micro_ini_load_stream true true true true cfg st).ret < 0 →
      (micro_ini_load_stream true true true true cfg st).ret = MICRO_INI_ERROR_BUFFER_OVERFLOW) ∧
    (0 ≤ (micro_ini_load_stream true true true true cfg st).ret →
      (micro_ini_load_stream true true true true cfg st).ret =
        ((countErrors (micro_ini_load_stream true true true true cfg st).events : Nat) : Int)) ∧
    (st.data = [] →
      micro_ini_load_stream true true true true cfg st = ⟨0, [], 1, initState st⟩) ∧
    (micro_ini_load_stream true true true true ⟨0, true, Char.ofNat 0⟩
        ⟨"bad\nk=v\n".toList, false⟩).events =
      [Event.error "bad".toList 1, Event.value [] ['k'] ['v']] ∧
    (micro_ini_load_stream true true true true ⟨0, true, Char.ofNat 0⟩
        ⟨"bad\nk=v\n".toList, false⟩).ret = 1 := by
  have hL : micro_ini_load_stream true true true true cfg st =
      microIniLoop cfg (st.data.length + 1) (initState st) := rfl
  refine ⟨?_, ?_, ?_, by decide, by decide⟩
  · intro hneg
    rcases microIniLoop_ret cfg hcb (st.data.length + 1) (initState st) with h | h
    · rw [hL]; exact h
    · rw [hL] at hneg ⊢; omega
  · intro hpos
    rcases microIniLoop_ret cfg hcb (st.data.length + 1) (initState st) with h | h
    · rw [hL] at hpos
      rw [h] at hpos
      norm_num [MICRO_INI_ERROR_BUFFER_OVERFLOW] at hpos
    · rw [hL, h]; norm_num [initState]
  · intro hdata
    obtain ⟨d, e⟩ := st
    simp only at hdata
    subst hdata
    rfl

theorem microIniDispatch_stop_cases (cfg : IniConfig) (s : LoopState) (line2 : List Char)
    (lineno1 : Nat) (stream1 : MStream) (pl : ParsedLine)
    (hstop : flagSet cfg.flags MICRO_INI_FLAG_STOP_ON_FIRST_ERROR = true) :
    (∃ ev s', microIniDispatch cfg s line2 lineno1 stream1 pl = .halt ((s'.numErrors : Nat) : Int) ev s' ∧
      ev.length ≤ 1 ∧ ∀ e ∈ ev, isErrEvent e = true) ∨
    (∃ ev s', microIniDispatch cfg s line2 lineno1 stream1 pl = .next ev s' ∧
      ∀ e ∈ ev, isErrEvent e = false) := by
  unfold microIniDispatch
  cases hst : pl.status
  case value =>
    exact Or.inr ⟨_, _, rfl, by simp [isErrEvent]⟩
  case error =>
    refine Or.inl ⟨if cfg.hasErrorCb then [Event.error line2 lineno1] else [],
      ⟨line2, 0, lineno1, false, s.numErrors + 1, pl.sect, stream1⟩, ?_, ?_, ?_⟩
    · simp [hstop]
    · split <;> simp
    · split <;> simp [isErrEvent]
  all_goals exact Or.inr ⟨_, _, rfl, by simp⟩

theorem microIniStep_stop_cases (cfg : IniConfig) (s : LoopState)
    (hstop : flagSet cfg.flags MICRO_INI_FLAG_STOP_ON_FIRST_ERROR = true) :
    microIniStep cfg s = .eofStop ∨
    (∃ s', microIniStep cfg s = .halt MICRO_INI_ERROR_BUFFER_OVERFLOW [] s') ∨
    (∃ ev s', microIniStep cfg s = .halt ((s'.numErrors : Nat) : Int) ev s' ∧
      ev.length ≤ 1 ∧ ∀ e ∈ ev, isErrEvent e = true) ∨
    (∃ ev s', microIniStep cfg s = .next ev s' ∧ ∀ e ∈ ev, isErrEvent e = false) := by
  unfold microIniStep
  cases hfg : fgetsModel (MICRO_INI_MAX_LINE_LENGTH - s.last) s.stream with
  | none => exact Or.inl rfl
  | some p =>
    obtain ⟨chunk, stream1⟩ := p
    simp only
    split
    · exact Or.inr (Or.inr (Or.inr ⟨[], _, rfl, by simp⟩))
    · split
      · exact Or.inr (Or.inl ⟨_, rfl⟩)
      · split
        · exact Or.inr (Or.inr (Or.inr ⟨[], _, rfl, by simp⟩))
        · rcases microIniDispatch_stop_cases cfg s _ _ _ _ hstop with ⟨ev, s', h, h1, h2⟩ | ⟨ev, s', h, h1⟩
          · exact Or.inr (Or.inr (Or.inl ⟨ev, s', h, h1, h2⟩))
          · exact Or.inr (Or.inr (Or.inr ⟨ev, s', h, h1⟩))

/-- With the stop-on-first-error flag, the loop emits at most one error
event and only as its very last event. -/
theorem microIniLoop_stop (cfg : IniConfig)
    (hstop : flagSet cfg.flags MICRO_INI_FLAG_STOP_ON_FIRST_ERROR = true) :
    ∀ (fuel : Nat) (s : LoopState),
      countErrors (microIniLoop cfg fuel s).events ≤ 1 ∧
      ∀ e ∈ (microIniLoop cfg fuel s).events.dropLast, isErrEvent e = false := by
  intro fuel
  induction fuel with
  | zero => intro s; simp [microIniLoop, countErrors]
  | succ n ih =>
    intro s
    rcases microIniStep_stop_cases cfg s hstop with h | ⟨s', h⟩ | ⟨ev, s', h, h1, h2⟩ | ⟨ev, s', h, h1⟩
    · simp [microIniLoop, h, countErrors]
    · simp [microIniLoop, h, countErrors]
    · constructor
      · simp only [microIniLoop, h]
        calc countErrors ev ≤ ev.length := List.countP_le_length _
          _ ≤ 1 := h1
      · simp only [microIniLoop, h]
        match ev, h1 with
        | [], _ => simp
        | [e], _ => simp
    · have hev0 : countErrors ev = 0 := List.countP_eq_zero.mpr (by simpa using h1)
      constructor
      · simp only [microIniLoop, h, countErrors, List.countP_append]
        have := (ih s').1
        simp only [countErrors] at hev0 this
        omega
      · simp only [microIniLoop, h]
        intro e he
        cases hrest : (microIniLoop cfg n s').events with
        | nil =>
          rw [hrest, List.append_nil] at he
          exact h1 e ((List.dropLast_sublist ev).subset he)
        | cons b t =>
          rw [hrest, List.dropLast_append_cons] at he
          rcases List.mem_append.mp he with h' | h'
          · exact h1 e h'
          · have := (ih s').2 e (by rw [hrest]; exact h')
            exact this

/-- C8 -/
theorem C8_stop_on_first_error (cfg : IniConfig) (st : MStream)
    (hstop : flagSet cfg.flags MICRO_INI_FLAG_STOP_ON_FIRST_ERROR = true)
    (hcb : cfg.hasErrorCb = true) :
    (0 ≤ (micro_ini_load_stream true true true true cfg st).ret →
      (micro_ini_load_stream true true true true cfg st).ret =
        ((countErrors (micro_ini_load_stream true true true true cfg st).events : Nat) : Int)) ∧
    countErrors (micro_ini_load_stream true true true true cfg st).events ≤ 1 ∧
    (∀ e ∈ (micro_ini_load_stream true true true true cfg st).events.dropLast,
      isErrEvent e = false) ∧
    (micro_ini_load_stream true true true true ⟨MICRO_INI_FLAG_STOP_ON_FIRST_ERROR, true, Char.ofNat 0⟩
        ⟨"k0=v0\nbad\nk=v\nbad2\n".toList, false⟩).events =
      [Event.value [] "k0".toList "v0".toList, Event.error "bad".toList 2] ∧
    (micro_ini_load_stream true true true true ⟨MICRO_INI_FLAG_STOP_ON_FIRST_ERROR, true, Char.ofNat 0⟩
        ⟨"k0=v0\nbad\nk=v\nbad2\n".toList, false⟩).ret = 1 := by
  have hL : micro_ini_load_stream true true true true cfg st =
      microIniLoop cfg (st.data.length + 1) (initState st) := rfl
  refine ⟨?_, ?_, ?_, by decide, by decide⟩
  · intro hpos
    rcases microIniLoop_ret cfg hcb (st.data.length + 1) (initState st) with h | h
    · rw [hL] at hpos
      rw [h] at hpos
      norm_num [MICRO_INI_ERROR_BUFFER_OVERFLOW] at hpos
    · rw [hL, h]; norm_num [initState]
  · rw [hL]; exact (microIniLoop_stop cfg hstop _ _).1
  · rw [hL]; exact (microIniLoop_stop cfg hstop _ _).2

theorem C2_witness :
    micro_ini_load_stream true true true true ⟨0, true, Char.ofNat 0⟩ ⟨[], false⟩ =
      ⟨0, [], 1, initState ⟨[], false⟩⟩ :=
  (C2_return_contract ⟨0, true, Char.ofNat 0⟩ ⟨[], false⟩ rfl).2.2.1 rfl

theorem C8_witness :
    countErrors (micro_ini_load_stream true true true true
      ⟨MICRO_INI_FLAG_STOP_ON_FIRST_ERROR, true, Char.ofNat 0⟩
      ⟨"k0=v0\nbad\nk=v\nbad2\n".toList, false⟩).events ≤ 1 ∧
    (micro_ini_load_stream true true true true
      ⟨MICRO_INI_FLAG_STOP_ON_FIRST_ERROR, true, Char.ofNat 0⟩
      ⟨"k0=v0\nbad\nk=v\nbad2\n".toList, false⟩).ret = 1 :=
  ⟨(C8_stop_on_first_error
      ⟨MICRO_INI_FLAG_STOP_ON_FIRST_ERROR, true, Char.ofNat 0⟩
      ⟨"k0=v0\nbad\nk=v\nbad2\n".toList, false⟩ (by decide) rfl).2.1,
   (C8_stop_on_first_error
      ⟨MICRO_INI_FLAG_STOP_ON_FIRST_ERROR, true, Char.ofNat 0⟩
      ⟨"k0=v0\nbad\nk=v\nbad2\n".toList, false⟩ (by decide) rfl).2.2.2.2⟩

/-- C7: whenever a read fills the buffer (the reader returns a maximal
chunk of `MICRO_INI_MAX_LINE_LENGTH - 1 - last` characters), the last
character of the filled region is not a newline, and the eof capability
reports the stream not exhausted, the loop aborts at once with the
buffer-overflow code: the line is not classified, nothing is dispatched, no
further read happens, and the accumulated error count is discarded. -/
theorem C7_buffer_overflow (cfg : IniConfig) (s : LoopState) (fuel : Nat)
    (chunk : List Char) (stream1 : MStream)
    (hread : fgetsModel (MICRO_INI_MAX_LINE_LENGTH - s.last) s.stream = some (chunk, stream1))
    (hfill : chunk.length = MICRO_INI_MAX_LINE_LENGTH - 1 - s.last)
    (hinv : s.last ≤ s.line.length) (hlast : s.last ≤ 510)
    (hnl : ∃ c, chunk.getLast? = some c ∧ c ≠ '\n')
    (heof : stream1.eofFlag = false) :
    microIniLoop cfg (fuel + 1) s =
      ⟨MICRO_INI_ERROR_BUFFER_OVERFLOW, [], 1,
        { s with line := s.line.take s.last ++ chunk,
                 lineno := s.lineno + 1, stream := stream1 }⟩ := by
  obtain ⟨c, hc, hcne⟩ := hnl
  have hfill' : chunk.length = 511 - s.last := by
    simpa [MICRO_INI_MAX_LINE_LENGTH] using hfill
  have htl : (s.line.take s.last).length = s.last := by
    rw [List.length_take]; omega
  have hlen1 : (s.line.take s.last ++ chunk).length = 511 := by
    rw [List.length_append, htl]; omega
  have hbuf : bufGet (s.line.take s.last ++ chunk)
      ((s.line.take s.last ++ chunk).length - 1) cfg.junk = c := by
    unfold bufGet
    rw [if_pos (by omega)]
    rw [List.getD_append_right _ _ _ _ (by omega)]
    have hidx : (s.line.take s.last ++ chunk).length - 1 - (s.line.take s.last).length =
        chunk.length - 1 := by omega
    rw [hidx, List.getD_eq_getElem?_getD, ← List.getLast?_eq_getElem?, hc]
    rfl
  have hstep : microIniStep cfg s = .halt MICRO_INI_ERROR_BUFFER_OVERFLOW []
      { s with line := s.line.take s.last ++ chunk,
               lineno := s.lineno + 1, stream := stream1 } := by
    simp only [microIniStep, hread]
    rw [if_neg (by rw [hlen1]; norm_num)]
    rw [if_pos ⟨by rw [hbuf]; exact hcne, heof⟩]
  simp only [microIniLoop, hstep]

set_option maxRecDepth 4096 in
theorem C7_witness :
    microIniLoop ⟨0, true, Char.ofNat 0⟩ 1
        (initState ⟨List.replicate 511 'a' ++ ['b'], false⟩) =
      ⟨MICRO_INI_ERROR_BUFFER_OVERFLOW, [], 1,
        ⟨List.replicate 511 'a', 0, 1, true, 0, [], ⟨['b'], false⟩⟩⟩ :=
  (C7_buffer_overflow ⟨0, true, Char.ofNat 0⟩
      (initState ⟨List.replicate 511 'a' ++ ['b'], false⟩) 0
      (List.replicate 511 'a') ⟨['b'], false⟩
      (by decide) (by decide) (by decide) (by decide)
      ⟨'a', by decide, by decide⟩ rfl).trans (by decide)

/-- Unrolling lemma: a `.next` step prepends its events. -/
theorem microIniLoop_next (cfg : IniConfig) (fuel : Nat) (s : LoopState)
    (ev : List Event) (s' : LoopState) (h : microIniStep cfg s = .next ev s') :
    microIniLoop cfg (fuel + 1) s =
      ⟨(microIniLoop cfg fuel s').ret, ev ++ (microIniLoop cfg fuel s').events,
        (microIniLoop cfg fuel s').reads + 1, (microIniLoop cfg fuel s').final⟩ := by
  simp [microIniLoop, h]

/-- Unrolling lemma: end of input returns the error count. -/
theorem microIniLoop_eof (cfg : IniConfig) (fuel : Nat) (s : LoopState)
    (h : microIniStep cfg s = .eofStop) :
    microIniLoop cfg (fuel + 1) s = ⟨(s.numErrors : Int), [], 1, s⟩ := by
  simp [microIniLoop, h]

/-- Classifying the first line of a BOM-prefixed input: the BOM skip
advances the start pointer by 3 but leaves `len` unadjusted, so for the
line `[s]` the classifier is called with the string `[s]` but `len = 6`,
and the section check reads `line[5]` — an indeterminate byte past the
string, modelled by `junk`.  Whenever that byte is not `']'`, the line
falls through every pattern and is classified as a syntax error. -/
theorem parse_line_bom_section (junk : Char) (hj : junk ≠ ']') :
    prv_micro_ini_parse_line "[s]".toList 6 [] junk = ⟨.error, [], [], []⟩ := by
  unfold prv_micro_ini_parse_line
  rw [show bufGet "[s]".toList 0 junk = '[' from rfl,
    show bufGet "[s]".toList (6 - 1) junk = junk from rfl]
  rw [if_neg (by decide), if_neg (by decide), if_neg (fun h => hj h.2)]
  decide

set_option maxHeartbeats 2000000 in
/-- C9: with the byte-order-mark flag, a first line `[s]` preceded by the
3-byte marker is NOT classified like the bare line `[s]`: the start pointer
is advanced past the marker but the length is not reduced, so the section
check inspects a byte beyond the line text (not `']'` for any actual
execution, modelled by `junk ≠ ']'`) and reports a syntax error, whereas
the same line without the marker parses as a section header. -/
theorem C9_bom_section_misclassified (junk : Char) (hj : junk ≠ ']') :
    (micro_ini_load_stream true true true true ⟨MICRO_INI_FLAG_BOM, true, junk⟩
        ⟨[Char.ofNat 0xEF, Char.ofNat 0xBB, Char.ofNat 0xBF] ++ "[s]\n".toList, false⟩).events =
      [Event.error ([Char.ofNat 0xEF, Char.ofNat 0xBB, Char.ofNat 0xBF] ++ "[s]".toList) 1] ∧
    (micro_ini_load_stream true true true true ⟨MICRO_INI_FLAG_BOM, true, junk⟩
        ⟨[Char.ofNat 0xEF, Char.ofNat 0xBB, Char.ofNat 0xBF] ++ "[s]\n".toList, false⟩).ret = 1 ∧
    (micro_ini_load_stream true true true true ⟨MICRO_INI_FLAG_BOM, true, junk⟩
        ⟨"[s]\n".toList, false⟩).events = [] ∧
    (micro_ini_load_stream true true true true ⟨MICRO_INI_FLAG_BOM, true, junk⟩
        ⟨"[s]\n".toList, false⟩).ret = 0 ∧
    (micro_ini_load_stream true true true true ⟨MICRO_INI_FLAG_BOM, true, junk⟩
        ⟨"[s]\n".toList, false⟩).final.sect = ['s'] := by
  have key := parse_line_bom_section junk hj
  have hstep : microIniStep ⟨MICRO_INI_FLAG_BOM, true, junk⟩
      (initState ⟨[Char.ofNat 0xEF, Char.ofNat 0xBB, Char.ofNat 0xBF] ++ "[s]\n".toList, false⟩) =
      .next [Event.error ([Char.ofNat 0xEF, Char.ofNat 0xBB, Char.ofNat 0xBF] ++ "[s]".toList) 1]
        ⟨[], 0, 1, false, 1, [], ⟨[], false⟩⟩ := by
    have hred : microIniStep ⟨MICRO_INI_FLAG_BOM, true, junk⟩
        (initState ⟨[Char.ofNat 0xEF, Char.ofNat 0xBB, Char.ofNat 0xBF] ++ "[s]\n".toList, false⟩) =
        microIniDispatch ⟨MICRO_INI_FLAG_BOM, true, junk⟩
          (initState ⟨[Char.ofNat 0xEF, Char.ofNat 0xBB, Char.ofNat 0xBF] ++ "[s]\n".toList, false⟩)
          ([Char.ofNat 0xEF, Char.ofNat 0xBB, Char.ofNat 0xBF] ++ "[s]".toList) 1 ⟨[], false⟩
          (prv_micro_ini_parse_line "[s]".toList 6 [] junk) := by with_unfolding_all rfl
    rw [hred, key]
    with_unfolding_all rfl
  have hrun : micro_ini_load_stream true true true true ⟨MICRO_INI_FLAG_BOM, true, junk⟩
      ⟨[Char.ofNat 0xEF, Char.ofNat 0xBB, Char.ofNat 0xBF] ++ "[s]\n".toList, false⟩ =
      microIniLoop ⟨MICRO_INI_FLAG_BOM, true, junk⟩ (7 + 1)
        (initState ⟨[Char.ofNat 0xEF, Char.ofNat 0xBB, Char.ofNat 0xBF] ++ "[s]\n".toList, false⟩) := rfl
  refine ⟨?_, ?_, by with_unfolding_all rfl, by with_unfolding_all rfl,
    by with_unfolding_all rfl⟩
  · rw [hrun, microIniLoop_next _ 7 _ _ _ hstep]
    with_unfolding_all rfl
  · rw [hrun, microIniLoop_next _ 7 _ _ _ hstep]
    with_unfolding_all rfl

theorem C9_witness :
    (micro_ini_load_stream true true true true ⟨MICRO_INI_FLAG_BOM, true, Char.ofNat 0⟩
        ⟨[Char.ofNat 0xEF, Char.ofNat 0xBB, Char.ofNat 0xBF] ++ "[s]\n".toList, false⟩).events =
      [Event.error ([Char.ofNat 0xEF, Char.ofNat 0xBB, Char.ofNat 0xBF] ++ "[s]".toList) 1] ∧
    (micro_ini_load_stream true true true true ⟨MICRO_INI_FLAG_BOM, true, Char.ofNat 0⟩
        ⟨"[s]\n".toList, false⟩).final.sect = ['s'] :=
  ⟨(C9_bom_section_misclassified (Char.ofNat 0) (by decide)).1,
   (C9_bom_section_misclassified (Char.ofNat 0) (by decide)).2.2.2.2⟩

/-!
List and trimming helper lemmas
-/

theorem takeWhile_append_all {α : Type} {p : α → Bool} :
    ∀ {l1 l2 : List α}, (∀ c ∈ l1, p c = true) →
      (l1 ++ l2).takeWhile p = l1 ++ l2.takeWhile p := by
  intro l1
  induction l1 with
  | nil => simp
  | cons a t ih =>
    intro l2 h
    rw [List.cons_append, List.takeWhile_cons, if_pos (h a (by simp)), List.cons_append,
      ih fun c hc => h c (by simp [hc])]

theorem dropWhile_append_all {α : Type} {p : α → Bool} :
    ∀ {l1 l2 : List α}, (∀ c ∈ l1, p c = true) →
      (l1 ++ l2).dropWhile p = l2.dropWhile p := by
  intro l1
  induction l1 with
  | nil => simp
  | cons a t ih =>
    intro l2 h
    rw [List.cons_append, List.dropWhile_cons, if_pos (h a (by simp))]
    exact ih fun c hc => h c (by simp [hc])

theorem takeWhile_all {α : Type} {p : α → Bool} {l : List α} (h : ∀ c ∈ l, p c = true) :
    l.takeWhile p = l :=
  List.takeWhile_eq_self_iff.mpr h

theorem dropWhile_dropWhile {α : Type} (p : α → Bool) (l : List α) :
    (l.dropWhile p).dropWhile p = l.dropWhile p := by
  induction l with
  | nil => simp
  | cons a t ih =>
    rw [List.dropWhile_cons]
    by_cases h : p a = true
    · rw [if_pos h]; exact ih
    · rw [if_neg h, List.dropWhile_cons, if_neg h]

theorem dropWhile_head_false {α : Type} {p : α → Bool} {l : List α}
    (h : ∀ x ∈ l.head?, p x = false) : l.dropWhile p = l := by
  cases l with
  | nil => rfl
  | cons a t =>
    rw [List.dropWhile_cons, if_neg]
    simp [h a (by simp)]

theorem mem_dropWhile_of_not {α : Type} {p : α → Bool} {c : α} :
    ∀ {l : List α}, c ∈ l → p c = false → c ∈ l.dropWhile p := by
  intro l
  induction l with
  | nil => simp
  | cons a t ih =>
    intro hc hp
    rw [List.dropWhile_cons]
    by_cases h : p a = true
    · rw [if_pos h]
      rcases List.mem_cons.mp hc with h' | h'
      · subst h'; rw [hp] at h; exact absurd h (by simp)
      · exact ih h' hp
    · rw [if_neg h]; exact hc

theorem mem_of_mem_dropWhile {α : Type} {p : α → Bool} {c : α} {l : List α}
    (h : c ∈ l.dropWhile p) : c ∈ l :=
  (List.dropWhile_sublist p).subset h

theorem mem_of_mem_takeWhile {α : Type} {p : α → Bool} {c : α} {l : List α}
    (h : c ∈ l.takeWhile p) : c ∈ l :=
  (List.takeWhile_sublist p).subset h

theorem mem_of_mem_strstrip {c : Char} {l : List Char}
    (h : c ∈ prv_micro_ini_strstrip l) : c ∈ l := by
  unfold prv_micro_ini_strstrip at h
  rw [List.mem_reverse] at h
  have h2 := mem_of_mem_dropWhile h
  rw [List.mem_reverse] at h2
  exact mem_of_mem_dropWhile h2

theorem mem_strstrip_of {c : Char} {l : List Char} (hc : c ∈ l)
    (hw : cIsSpace c = false) : c ∈ prv_micro_ini_strstrip l := by
  unfold prv_micro_ini_strstrip
  rw [List.mem_reverse]
  apply mem_dropWhile_of_not _ hw
  rw [List.mem_reverse]
  exact mem_dropWhile_of_not hc hw

theorem strstrip_nil : prv_micro_ini_strstrip [] = [] := rfl

theorem strstrip_dropWhile (l : List Char) :
    prv_micro_ini_strstrip (l.dropWhile cIsSpace) = prv_micro_ini_strstrip l := by
  unfold prv_micro_ini_strstrip
  rw [dropWhile_dropWhile]

theorem strstrip_ws_append {w l : List Char} (hw : ∀ c ∈ w, cIsSpace c = true) :
    prv_micro_ini_strstrip (w ++ l) = prv_micro_ini_strstrip l := by
  unfold prv_micro_ini_strstrip
  rw [dropWhile_append_all hw]

theorem strstrip_all_ws {l : List Char} (h : ∀ c ∈ l, cIsSpace c = true) :
    prv_micro_ini_strstrip l = [] := by
  unfold prv_micro_ini_strstrip
  rw [List.dropWhile_eq_nil_iff.mpr h]
  rfl

theorem strstrip_cons_ne_nil {a : Char} {t : List Char} (ha : cIsSpace a = false) :
    prv_micro_ini_strstrip (a :: t) ≠ [] := by
  intro h
  have : a ∈ prv_micro_ini_strstrip (a :: t) := mem_strstrip_of (by simp) ha
  rw [h] at this
  exact absurd this (by simp)

theorem head?_dropWhile_false {α : Type} (p : α → Bool) (l : List α) :
    ∀ x ∈ (l.dropWhile p).head?, p x = false := by
  intro x hx
  have h := List.head?_dropWhile_not p l
  cases hh : (l.dropWhile p).head? with
  | none => rw [hh] at hx; exact absurd hx (by simp)
  | some y =>
    rw [hh] at hx h
    simp at hx
    subst hx
    exact h

theorem getLast?_suffix_eq {α : Type} {l big : List α} (h : l <:+ big) (hne : l ≠ []) :
    big.getLast? = l.getLast? := by
  obtain ⟨t, ht⟩ := h
  rw [← ht]
  exact List.getLast?_append_of_ne_nil t hne

theorem head?_strstrip (l : List Char) :
    ∀ x ∈ (prv_micro_ini_strstrip l).head?, cIsSpace x = false := by
  intro x hx
  unfold prv_micro_ini_strstrip at hx
  set A := l.dropWhile cIsSpace with hA
  set B := A.reverse.dropWhile cIsSpace with hB
  by_cases hBe : B = []
  · rw [hBe] at hx; exact absurd hx (by simp)
  · rw [List.head?_reverse] at hx
    have hsuf : B <:+ A.reverse := by rw [hB]; exact List.dropWhile_suffix cIsSpace
    have h1 : A.reverse.getLast? = B.getLast? := getLast?_suffix_eq hsuf hBe
    rw [← h1, List.getLast?_reverse] at hx
    exact head?_dropWhile_false cIsSpace l x hx

theorem strstrip_idem (l : List Char) :
    prv_micro_ini_strstrip (prv_micro_ini_strstrip l) = prv_micro_ini_strstrip l := by
  have h1 : (prv_micro_ini_strstrip l).dropWhile cIsSpace = prv_micro_ini_strstrip l :=
    dropWhile_head_false (head?_strstrip l)
  show prv_micro_ini_strstrip (prv_micro_ini_strstrip l) = prv_micro_ini_strstrip l
  unfold prv_micro_ini_strstrip
  rw [show (((l.dropWhile cIsSpace).reverse.dropWhile cIsSpace).reverse).dropWhile cIsSpace =
      ((l.dropWhile cIsSpace).reverse.dropWhile cIsSpace).reverse from h1]
  rw [List.reverse_reverse, dropWhile_dropWhile]

/-!
Characterization of the sscanf-pattern scanners
-/

theorem scanKeyEq_eq (k rest : List Char) (hk : k ≠ []) (hkeq : '=' ∉ k) :
    scanKeyEq (k ++ '=' :: rest) = some (k, rest) := by
  have hall : ∀ c ∈ k, (fun c => decide (¬ c = '=')) c = true := by
    intro c hc
    simp only [decide_eq_true_eq]
    exact fun h => hkeq (h ▸ hc)
  unfold scanKeyEq
  simp only [takeWhile_append_all hall, dropWhile_append_all hall, List.takeWhile_cons,
    List.dropWhile_cons]
  norm_num
  refine ⟨hk, ?_⟩
  rw [dropWhile_head_false (by simp [cIsSpace])]
  simp

theorem scanKeyEqOnly_some (k rest : List Char) (hk : k ≠ []) (hkeq : '=' ∉ k) :
    scanKeyEqOnly (k ++ '=' :: rest) =
      some (k, '=' :: rest.takeWhile (fun c => c = '=')) := by
  have hall : ∀ c ∈ k, (fun c => decide (¬ c = '=')) c = true := by
    intro c hc
    simp only [decide_eq_true_eq]
    exact fun h => hkeq (h ▸ hc)
  unfold scanKeyEqOnly
  simp only [takeWhile_append_all hall, dropWhile_append_all hall, List.takeWhile_cons,
    List.dropWhile_cons]
  norm_num
  simp only [@dropWhile_head_false Char cIsSpace ('=' :: rest) (by simp [cIsSpace])]
  refine ⟨hk, ⟨by simp, by simp⟩, by simp [List.takeWhile_cons]⟩

theorem scanKeyEq_none_no_eq (l : List Char) (h : '=' ∉ l) : scanKeyEq l = none := by
  unfold scanKeyEq
  have hall : ∀ c ∈ l, (fun c => decide (¬ c = '=')) c = true := by
    intro c hc
    simp only [decide_eq_true_eq]
    exact fun he => h (he ▸ hc)
  by_cases he : (l.takeWhile (fun c => decide (¬ c = '='))).isEmpty
  · rw [if_pos he]
  · rw [if_neg he, List.dropWhile_eq_nil_iff.mpr hall]
    rfl

theorem scanKeyEq_none_head_eq (t : List Char) : scanKeyEq ('=' :: t) = none := by
  unfold scanKeyEq
  rw [List.takeWhile_cons]
  norm_num

theorem scanKeyEqOnly_none_no_eq (l : List Char) (h : '=' ∉ l) : scanKeyEqOnly l = none := by
  unfold scanKeyEqOnly
  have hall : ∀ c ∈ l, (fun c => decide (¬ c = '=')) c = true := by
    intro c hc
    simp only [decide_eq_true_eq]
    exact fun he => h (he ▸ hc)
  by_cases he : (l.takeWhile (fun c => decide (¬ c = '='))).isEmpty
  · rw [if_pos he]
  · rw [if_neg he, List.dropWhile_eq_nil_iff.mpr hall]
    rfl

theorem scanKeyEqOnly_none_head_eq (t : List Char) : scanKeyEqOnly ('=' :: t) = none := by
  unfold scanKeyEqOnly
  rw [List.takeWhile_cons]
  norm_num

theorem scanQuotedValue_none_of (q : Char) (l : List Char) (h : scanKeyEq l = none) :
    scanQuotedValue q l = none := by
  unfold scanQuotedValue
  rw [h]

theorem scanUnquotedValue_none_of (l : List Char) (h : scanKeyEq l = none) :
    scanUnquotedValue l = none := by
  unfold scanUnquotedValue
  rw [h]

theorem scanCommentValue_none_of (l : List Char) (h : scanKeyEq l = none) :
    scanCommentValue l = none := by
  unfold scanCommentValue
  rw [h]

theorem scanKeyEq_some_imp {l key rest : List Char} (h : scanKeyEq l = some (key, rest)) :
    key = l.takeWhile (fun c => ¬ c = '=') ∧ key ≠ [] ∧ '=' ∈ l := by
  unfold scanKeyEq at h
  by_cases he : (l.takeWhile (fun c => decide (¬ c = '='))).isEmpty
  · rw [if_pos he] at h; exact absurd h (by simp)
  · rw [if_neg he] at h
    split at h
    · split at h
      · injection h with hp
        injection hp with h1 h2
        subst h1
        rename_i c r heqd hc
        refine ⟨rfl, by simpa using he, ?_⟩
        subst hc
        have hm : '=' ∈ (l.dropWhile (fun c => decide (¬ c = '='))).dropWhile cIsSpace := by
          rw [heqd]; simp
        exact mem_of_mem_dropWhile (mem_of_mem_dropWhile hm)
      · exact absurd h (by simp)
    · exact absurd h (by simp)

theorem scanKeyEqOnly_some_imp {l key rest : List Char}
    (h : scanKeyEqOnly l = some (key, rest)) :
    key = l.takeWhile (fun c => ¬ c = '=') ∧ key ≠ [] ∧ '=' ∈ l := by
  unfold scanKeyEqOnly at h
  by_cases he : (l.takeWhile (fun c => decide (¬ c = '='))).isEmpty
  · rw [if_pos he] at h; exact absurd h (by simp)
  · rw [if_neg he] at h
    by_cases hq : (((l.dropWhile (fun c => decide (¬ c = '='))).dropWhile cIsSpace).takeWhile
        (fun c => decide (c = '='))).isEmpty
    · rw [if_pos hq] at h; exact absurd h (by simp)
    · rw [if_neg hq] at h
      injection h with hp
      injection hp with h1 h2
      subst h1
      refine ⟨rfl, by simpa using he, ?_⟩
      rw [Bool.not_eq_true, List.isEmpty_eq_false_iff_exists_mem] at hq
      obtain ⟨c, hc⟩ := hq
      have hceq : c = '=' := by simpa using List.mem_takeWhile_imp hc
      subst hceq
      exact mem_of_mem_dropWhile (mem_of_mem_dropWhile (mem_of_mem_takeWhile hc))

theorem scanQuotedValue_some_imp {q : Char} {l key v : List Char}
    (h : scanQuotedValue q l = some (key, v)) : ∃ r, scanKeyEq l = some (key, r) := by
  unfold scanQuotedValue at h
  split at h
  · exact absurd h (by simp)
  · rename_i p k0 r0 heq
    split at h
    · split at h
      · dsimp only at h
        split at h
        · exact absurd h (by simp)
        · injection h with hp
          injection hp with h1 h2
          subst h1
          exact ⟨r0, heq⟩
      · exact absurd h (by simp)
    · exact absurd h (by simp)

theorem scanUnquotedValue_some_imp {l key v : List Char}
    (h : scanUnquotedValue l = some (key, v)) : ∃ r, scanKeyEq l = some (key, r) := by
  unfold scanUnquotedValue at h
  split at h
  · exact absurd h (by simp)
  · rename_i p k0 r0 heq
    dsimp only at h
    split at h
    · exact absurd h (by simp)
    · injection h with hp
      injection hp with h1 h2
      subst h1
      exact ⟨r0, heq⟩

theorem scanCommentValue_some_imp {l key v : List Char}
    (h : scanCommentValue l = some (key, v)) : ∃ r, scanKeyEq l = some (key, r) := by
  unfold scanCommentValue at h
  split at h
  · exact absurd h (by simp)
  · rename_i p k0 r0 heq
    dsimp only at h
    split at h
    · exact absurd h (by simp)
    · injection h with hp
      injection hp with h1 h2
      subst h1
      exact ⟨r0, heq⟩

theorem scanQuotedValue_some (q : Char) (k w v tail : List Char) (hk : k ≠ [])
    (hkeq : '=' ∉ k) (hw : ∀ c ∈ w, cIsSpace c = true) (hq : cIsSpace q = false)
    (hv : v ≠ []) (hvq : q ∉ v) :
    scanQuotedValue q (k ++ '=' :: (w ++ q :: (v ++ q :: tail))) = some (k, v) := by
  unfold scanQuotedValue
  rw [scanKeyEq_eq k _ hk hkeq]
  have hwall : ∀ c ∈ w, cIsSpace c = true := hw
  dsimp only
  rw [dropWhile_append_all hwall, List.dropWhile_cons, if_neg (by simp [hq])]
  dsimp only
  rw [if_pos rfl]
  have hvall : ∀ c ∈ v, (fun x => decide (¬ x = q)) c = true := by
    intro c hc
    simp only [decide_eq_true_eq]
    exact fun hcq => hvq (hcq ▸ hc)
  rw [takeWhile_append_all hvall, List.takeWhile_cons]
  rw [if_neg (show ¬ ((fun x => decide (¬ x = q)) q = true) by simp)]
  rw [List.append_nil]
  rw [if_neg (by simpa using hv)]

theorem scanQuotedValue_none_head (q : Char) (k rest : List Char) (hk : k ≠ [])
    (hkeq : '=' ∉ k) (hh : ∀ x ∈ (rest.dropWhile cIsSpace).head?, ¬ x = q) :
    scanQuotedValue q (k ++ '=' :: rest) = none := by
  unfold scanQuotedValue
  rw [scanKeyEq_eq k _ hk hkeq]
  dsimp only
  cases hd : rest.dropWhile cIsSpace with
  | nil => rfl
  | cons c r =>
    dsimp only
    rw [if_neg (hh c (by rw [hd]; rfl))]

theorem scanKeyEqOnly_ne_none (l : List Char) (h1 : '=' ∈ l)
    (h2 : ∀ x ∈ l.head?, ¬ x = '=') : ¬ scanKeyEqOnly l = none := by
  intro h
  unfold scanKeyEqOnly at h
  by_cases he : ((l.takeWhile (fun c => decide (¬ c = '='))).isEmpty) = true
  · obtain ⟨a, t, rfl⟩ : ∃ a t, l = a :: t := by
      cases l with
      | nil => exact absurd h1 (by simp)
      | cons a t => exact ⟨a, t, rfl⟩
    have hpa : (fun c => decide (¬ c = '=')) a = true := by simpa using h2 a rfl
    rw [List.takeWhile_cons, if_pos hpa] at he
    simp at he
  · rw [if_neg he] at h
    obtain ⟨t', hdt⟩ : ∃ t', l.dropWhile (fun c => decide (¬ c = '=')) = '=' :: t' := by
      cases hdd : l.dropWhile (fun c => decide (¬ c = '=')) with
      | nil =>
        exfalso
        have := List.dropWhile_eq_nil_iff.mp hdd '=' h1
        simp at this
      | cons d t' =>
        have hd_eq : d = '=' := by
          simpa using head?_dropWhile_false (fun c => decide (¬ c = '=')) l d
            (by rw [hdd]; rfl)
        exact ⟨t', by rw [hd_eq]⟩
    dsimp only at h
    split at h
    · rename_i heqs
      rw [hdt, dropWhile_head_false (by simp [cIsSpace]), List.takeWhile_cons] at heqs
      simp at heqs
    · simp at h

theorem parseValueCascade_status (l sect0 : List Char) :
    (parseValueCascade l sect0).status = .value ∨
      parseValueCascade l sect0 = ⟨.error, sect0, [], []⟩ := by
  unfold parseValueCascade
  split
  · left; rfl
  · split
    · left; rfl
    · split
      · left; rfl
      · right; rfl

theorem parseValueCascade_value_of (l sect0 : List Char) (h1 : '=' ∈ l)
    (h2 : ∀ x ∈ l.head?, ¬ x = '=') :
    (parseValueCascade l sect0).status = .value := by
  rcases parseValueCascade_status l sect0 with h | h
  · exact h
  · exfalso
    unfold parseValueCascade at h
    split at h
    · simp at h
    · split at h
      · simp at h
      · split at h
        · simp at h
        · rename_i heq3
          apply scanKeyEqOnly_ne_none l h1 h2
          cases hcc : scanCommentValue l with
          | some p => rw [hcc, Option.some_orElse] at heq3; exact absurd heq3 (by simp)
          | none => rw [hcc, Option.none_orElse] at heq3; exact heq3

theorem parseValueCascade_error_of (l sect0 : List Char) (hke : scanKeyEq l = none)
    (hko : scanKeyEqOnly l = none) :
    parseValueCascade l sect0 = ⟨.error, sect0, [], []⟩ := by
  unfold parseValueCascade
  rw [scanQuotedValue_none_of dquote l hke, scanQuotedValue_none_of squote l hke,
    scanUnquotedValue_none_of l hke, scanCommentValue_none_of l hke, hko]
  rfl

theorem parseValueCascade_value_key (l sect0 : List Char)
    (h : (parseValueCascade l sect0).status = .value) :
    (parseValueCascade l sect0).key =
      prv_micro_ini_strstrip (l.takeWhile (fun c => ¬ c = '=')) ∧
    l.takeWhile (fun c => ¬ c = '=') ≠ [] ∧ '=' ∈ l := by
  unfold parseValueCascade
  split
  · rename_i p k v heq
    have hkq : ∃ r, scanKeyEq l = some (k, r) := by
      cases hq1 : scanQuotedValue dquote l with
      | some p2 =>
        rw [hq1, Option.some_orElse] at heq
        exact scanQuotedValue_some_imp (heq ▸ hq1)
      | none =>
        rw [hq1, Option.none_orElse] at heq
        exact scanQuotedValue_some_imp heq
    obtain ⟨r, hr⟩ := hkq
    obtain ⟨hk1, hk2, hk3⟩ := scanKeyEq_some_imp hr
    exact ⟨by dsimp only; rw [hk1], hk1 ▸ hk2, hk3⟩
  · split
    · rename_i p k v heq
      obtain ⟨r, hr⟩ := scanUnquotedValue_some_imp heq
      obtain ⟨hk1, hk2, hk3⟩ := scanKeyEq_some_imp hr
      exact ⟨by dsimp only; rw [hk1], hk1 ▸ hk2, hk3⟩
    · split
      · rename_i p k v heq
        have hkey : k = l.takeWhile (fun c => ¬ c = '=') ∧
            l.takeWhile (fun c => ¬ c = '=') ≠ [] ∧ '=' ∈ l := by
          cases hq1 : scanCommentValue l with
          | some p2 =>
            rw [hq1, Option.some_orElse] at heq
            obtain ⟨r, hr⟩ := scanCommentValue_some_imp (heq ▸ hq1)
            obtain ⟨hk1, hk2, hk3⟩ := scanKeyEq_some_imp hr
            exact ⟨hk1, hk1 ▸ hk2, hk3⟩
          | none =>
            rw [hq1, Option.none_orElse] at heq
            obtain ⟨hk1, hk2, hk3⟩ := scanKeyEqOnly_some_imp heq
            exact ⟨hk1, hk1 ▸ hk2, hk3⟩
        exact ⟨by dsimp only; rw [hkey.1], hkey.2⟩
      · rename_i x1 hq2 x2 hu2 x3 hc2
        exfalso
        unfold parseValueCascade at h
        rw [hq2] at h
        rw [hu2] at h
        rw [hc2] at h
        simp at h

theorem bufGet_head (a : Char) (t : List Char) (junk : Char) :
    bufGet (a :: t) 0 junk = a := by
  simp [bufGet]

theorem bufGet_last (l : List Char) (junk : Char) (h : l ≠ []) :
    bufGet l (l.length - 1) junk = l.getLastD junk := by
  unfold bufGet
  rw [if_pos (by cases l with | nil => simp at h | cons a t => simp)]
  rw [List.getD_eq_getElem?_getD, ← List.getLast?_eq_getElem?, List.getLastD_eq_getLast?]

theorem getLast?_cons_getLastD (a : Char) (t : List Char) (junk : Char) :
    (a :: t).getLast? = some ((a :: t).getLastD junk) := by
  rw [List.getLastD_eq_getLast?]
  cases hgl : (a :: t).getLast? with
  | none => exact absurd hgl (by simp)
  | some x => rfl

/-- Reduction of the classifier to the value cascade for a line that is
non-empty, no comment and no section header. -/
theorem parse_line_to_cascade (a : Char) (t sect0 : List Char) (junk : Char)
    (ha1 : ¬ a = '#') (ha2 : ¬ a = ';')
    (hsec : ¬(a = '[' ∧ (a :: t).getLast? = some ']')) :
    prv_micro_ini_parse_line (a :: t) (a :: t).length sect0 junk =
      parseValueCascade (a :: t) sect0 := by
  unfold prv_micro_ini_parse_line
  rw [if_neg (by simp), if_neg (by rw [bufGet_head]; exact fun hor => hor.elim ha1 ha2),
    if_neg ?hns]
  case hns =>
    rw [bufGet_head, bufGet_last _ _ (by simp)]
    intro hand
    exact hsec ⟨hand.1, by rw [getLast?_cons_getLastD a t junk, hand.2]⟩

/-- C10: for a trimmed, non-empty, non-comment, non-section line,
classification yields Value exactly when the line contains an `=` preceded
by at least one other character; every delivered key is then non-empty,
itself whitespace-trimmed, and contains no `=`; lines with no `=` or with
`=` first are syntax errors. -/
theorem C10_value_iff_eq_and_key_shape (a : Char) (t sect0 : List Char) (junk : Char)
    (htrim : prv_micro_ini_strstrip (a :: t) = a :: t)
    (ha1 : ¬ a = '#') (ha2 : ¬ a = ';')
    (hsec : ¬(a = '[' ∧ (a :: t).getLast? = some ']')) :
    ((prv_micro_ini_parse_line (a :: t) (a :: t).length sect0 junk).status = .value ↔
      ('=' ∈ a :: t ∧ ¬ a = '=')) ∧
    ((prv_micro_ini_parse_line (a :: t) (a :: t).length sect0 junk).status = .value →
      (prv_micro_ini_parse_line (a :: t) (a :: t).length sect0 junk).key ≠ [] ∧
      prv_micro_ini_strstrip (prv_micro_ini_parse_line (a :: t) (a :: t).length sect0 junk).key =
        (prv_micro_ini_parse_line (a :: t) (a :: t).length sect0 junk).key ∧
      '=' ∉ (prv_micro_ini_parse_line (a :: t) (a :: t).length sect0 junk).key) ∧
    (('=' ∉ a :: t ∨ a = '=') →
      (prv_micro_ini_parse_line (a :: t) (a :: t).length sect0 junk).status = .error) := by
  have hred := parse_line_to_cascade a t sect0 junk ha1 ha2 hsec
  have hans : cIsSpace a = false := by
    have hh := head?_strstrip (a :: t)
    rw [htrim] at hh
    exact hh a rfl
  rw [hred]
  have hvalkey := parseValueCascade_value_key (a :: t) sect0
  refine ⟨⟨?_, ?_⟩, ?_, ?_⟩
  · intro hv
    obtain ⟨_, hk2, hk3⟩ := hvalkey hv
    refine ⟨hk3, ?_⟩
    intro haeq
    apply hk2
    rw [List.takeWhile_cons, if_neg (by simp [haeq])]
  · rintro ⟨hmem, hhead⟩
    exact parseValueCascade_value_of (a :: t) sect0 hmem (by simpa using hhead)
  · intro hv
    obtain ⟨hk1, hk2, hk3⟩ := hvalkey hv
    have hane : ¬ a = '=' := by
      intro haeq
      apply hk2
      rw [List.takeWhile_cons, if_neg (by simp [haeq])]
    have htw : (a :: t).takeWhile (fun c => ¬ c = '=') =
        a :: t.takeWhile (fun c => decide (¬ c = '=')) := by
      rw [List.takeWhile_cons, if_pos (by simpa using hane)]
    refine ⟨?_, ?_, ?_⟩
    · rw [hk1, htw]
      exact strstrip_cons_ne_nil hans
    · rw [hk1]
      exact strstrip_idem _
    · intro hmem
      rw [hk1] at hmem
      have := mem_of_mem_takeWhile (mem_of_mem_strstrip hmem)
      have h2 := List.mem_takeWhile_imp (mem_of_mem_strstrip hmem)
      simp at h2
  · intro hcase
    rcases hcase with hno | haeq
    · rw [parseValueCascade_error_of (a :: t) sect0 (scanKeyEq_none_no_eq _ hno)
        (scanKeyEqOnly_none_no_eq _ hno)]
    · subst haeq
      rw [parseValueCascade_error_of ('=' :: t) sect0 (scanKeyEq_none_head_eq t)
        (scanKeyEqOnly_none_head_eq t)]

theorem C10_witness :
    (prv_micro_ini_parse_line ('k' :: "=v".toList) ('k' :: "=v".toList).length []
      (Char.ofNat 0)).status = .value ∧
    (prv_micro_ini_parse_line ('x' :: "yz".toList) ('x' :: "yz".toList).length []
      (Char.ofNat 0)).status = .error :=
  ⟨(C10_value_iff_eq_and_key_shape 'k' "=v".toList [] (Char.ofNat 0) (by decide) (by decide)
      (by decide) (by decide)).1.mpr (by decide),
   (C10_value_iff_eq_and_key_shape 'x' "yz".toList [] (Char.ofNat 0) (by decide) (by decide)
      (by decide) (by decide)).2.2 (Or.inl (by decide))⟩

/-- Parsing a `key = "value"` / `key = 'value'` line: the quoted patterns
match first and the quote-delimited capture is delivered (stripped), with
the key stripped as well. -/
theorem quotedLine_parse (q a : Char) (k' w v sect0 : List Char) (junk : Char)
    (hq : q = dquote ∨ q = squote)
    (ha1 : ¬ a = '#') (ha2 : ¬ a = ';') (ha3 : ¬ a = '[')
    (hkeq : '=' ∉ a :: k') (hw : ∀ c ∈ w, cIsSpace c = true)
    (hv : v ≠ []) (hvd : dquote ∉ v) (hvs : squote ∉ v) :
    prv_micro_ini_parse_line ((a :: k') ++ '=' :: (w ++ q :: (v ++ [q])))
        ((a :: k') ++ '=' :: (w ++ q :: (v ++ [q]))).length sect0 junk =
      ⟨.value, sect0, prv_micro_ini_strstrip (a :: k'), prv_micro_ini_strstrip v⟩ := by
  have hline : (a :: k') ++ '=' :: (w ++ q :: (v ++ [q])) =
      a :: (k' ++ '=' :: (w ++ q :: (v ++ [q]))) := by simp
  have hred : prv_micro_ini_parse_line ((a :: k') ++ '=' :: (w ++ q :: (v ++ [q])))
      ((a :: k') ++ '=' :: (w ++ q :: (v ++ [q]))).length sect0 junk =
      parseValueCascade ((a :: k') ++ '=' :: (w ++ q :: (v ++ [q]))) sect0 := by
    rw [hline]
    exact parse_line_to_cascade a _ sect0 junk ha1 ha2 (fun hand => ha3 hand.1)
  rw [hred]
  have hnorm : ¬(prv_micro_ini_strstrip v = [dquote, dquote] ∨
      prv_micro_ini_strstrip v = [squote, squote]) := by
    rintro (hvv | hvv)
    · exact hvd (mem_of_mem_strstrip (by rw [hvv]; simp))
    · exact hvs (mem_of_mem_strstrip (by rw [hvv]; simp))
  have hqns : cIsSpace q = false := by rcases hq with rfl | rfl <;> decide
  have hkne : (a :: k') ≠ [] := by simp
  rcases hq with rfl | rfl
  · have hs := scanQuotedValue_some dquote (a :: k') w v [] hkne hkeq hw hqns hv hvd
    unfold parseValueCascade
    rw [hs, Option.some_orElse]
    dsimp only
    rw [if_neg hnorm]
  · have hs := scanQuotedValue_some squote (a :: k') w v [] hkne hkeq hw hqns hv hvs
    have hn : scanQuotedValue dquote ((a :: k') ++ '=' :: (w ++ squote :: (v ++ [squote]))) =
        none := by
      apply scanQuotedValue_none_head dquote (a :: k') _ hkne hkeq
      rw [dropWhile_append_all hw, List.dropWhile_cons,
        if_neg (by simp [hqns])]
      intro x hx
      rw [show ((squote :: (v ++ [squote])).head? : Option Char) = some squote from rfl] at hx
      simp at hx
      subst hx
      decide
    unfold parseValueCascade
    rw [hn, Option.none_orElse, hs]
    dsimp only
    rw [if_neg hnorm]

/-- Parsing an unquoted `key = value ; comment` (or `# comment`) line: the
quoted patterns fail, and the value delivered is the text between `=` and
the first `;`/`#`, whitespace-stripped. -/
theorem unquotedLine_parse (a c : Char) (k' w v tail sect0 : List Char) (junk : Char)
    (ha1 : ¬ a = '#') (ha2 : ¬ a = ';') (ha3 : ¬ a = '[')
    (hkeq : '=' ∉ a :: k') (hw : ∀ x ∈ w, cIsSpace x = true)
    (hc : c = ';' ∨ c = '#')
    (hv1 : ';' ∉ v) (hv2 : '#' ∉ v) (hvd : dquote ∉ v) (hvs : squote ∉ v) :
    prv_micro_ini_parse_line ((a :: k') ++ '=' :: (w ++ v ++ c :: tail))
        ((a :: k') ++ '=' :: (w ++ v ++ c :: tail)).length sect0 junk =
      ⟨.value, sect0, prv_micro_ini_strstrip (a :: k'),
        prv_micro_ini_strstrip (w ++ v)⟩ := by
  have hline : (a :: k') ++ '=' :: (w ++ v ++ c :: tail) =
      a :: (k' ++ '=' :: (w ++ v ++ c :: tail)) := by simp
  have hred : prv_micro_ini_parse_line ((a :: k') ++ '=' :: (w ++ v ++ c :: tail))
      ((a :: k') ++ '=' :: (w ++ v ++ c :: tail)).length sect0 junk =
      parseValueCascade ((a :: k') ++ '=' :: (w ++ v ++ c :: tail)) sect0 := by
    rw [hline]
    exact parse_line_to_cascade a _ sect0 junk ha1 ha2 (fun hand => ha3 hand.1)
  rw [hred]
  have hkne : (a :: k') ≠ [] := by simp
  have hcns : cIsSpace c = false := by rcases hc with rfl | rfl <;> decide
  have hrest : (w ++ v ++ c :: tail) = w ++ (v ++ c :: tail) := by simp
  have hdw : (w ++ v ++ c :: tail).dropWhile cIsSpace =
      (v ++ c :: tail).dropWhile cIsSpace := by
    rw [hrest, dropWhile_append_all hw]
  have hdw2 : (v ++ c :: tail).dropWhile cIsSpace =
      if (v.dropWhile cIsSpace).isEmpty then (c :: tail).dropWhile cIsSpace
      else v.dropWhile cIsSpace ++ c :: tail :=
    @List.dropWhile_append _ cIsSpace v (c :: tail)
  have hstripwv : prv_micro_ini_strstrip (w ++ v) = prv_micro_ini_strstrip v :=
    strstrip_ws_append hw
  by_cases hve : (v.dropWhile cIsSpace).isEmpty = true
  · -- the text before the comment character is all whitespace
    have hall : ∀ x ∈ v, cIsSpace x = true :=
      List.dropWhile_eq_nil_iff.mp (by simpa using hve)
    have hdwA : (w ++ v ++ c :: tail).dropWhile cIsSpace = c :: tail := by
      rw [hdw, hdw2, if_pos hve, List.dropWhile_cons, if_neg (by simp [hcns])]
    have hqfail : ∀ q : Char, cIsSpace q = false → ¬ c = q →
        scanQuotedValue q ((a :: k') ++ '=' :: (w ++ v ++ c :: tail)) = none := by
      intro q hqns hcq
      apply scanQuotedValue_none_head q (a :: k') _ hkne hkeq
      rw [hdwA]
      intro x hx
      have hxeq : c = x := by simpa using hx
      subst hxeq
      exact hcq
    have hufail : scanUnquotedValue ((a :: k') ++ '=' :: (w ++ v ++ c :: tail)) = none := by
      unfold scanUnquotedValue
      rw [scanKeyEq_eq _ _ hkne hkeq]
      dsimp only
      have htw : (c :: tail).takeWhile (fun x => decide (¬ x = ';' ∧ ¬ x = '#')) = [] := by
        rw [List.takeWhile_cons, if_neg (by rcases hc with rfl | rfl <;> simp)]
      rw [hdwA, htw]
      rfl
    have hcsome : scanCommentValue ((a :: k') ++ '=' :: (w ++ v ++ c :: tail)) =
        some (a :: k', c :: tail.takeWhile (fun x => decide (x = ';' ∨ x = '#'))) := by
      unfold scanCommentValue
      rw [scanKeyEq_eq _ _ hkne hkeq]
      dsimp only
      have htw : (c :: tail).takeWhile (fun x => decide (x = ';' ∨ x = '#')) =
          c :: tail.takeWhile (fun x => decide (x = ';' ∨ x = '#')) := by
        rw [List.takeWhile_cons, if_pos (by rcases hc with rfl | rfl <;> simp)]
      rw [hdwA, htw, if_neg (by simp)]
    unfold parseValueCascade
    rw [hqfail dquote (by decide) (by rcases hc with rfl | rfl <;> decide),
      Option.none_orElse,
      hqfail squote (by decide) (by rcases hc with rfl | rfl <;> decide),
      hufail, hcsome, Option.some_orElse]
    rw [hstripwv, strstrip_all_ws hall]
  · -- the value text has a non-space character
    obtain ⟨d, dt, hdv⟩ : ∃ d dt, v.dropWhile cIsSpace = d :: dt := by
      cases hh : v.dropWhile cIsSpace with
      | nil => rw [hh] at hve; simp at hve
      | cons d dt => exact ⟨d, dt, rfl⟩
    have hdmem : ∀ x ∈ v.dropWhile cIsSpace, x ∈ v := fun x hx => mem_of_mem_dropWhile hx
    have hdwB : (w ++ v ++ c :: tail).dropWhile cIsSpace =
        v.dropWhile cIsSpace ++ c :: tail := by
      rw [hdw, hdw2, if_neg (by simp [hve])]
    have hqfail : ∀ q : Char, ¬ q ∈ v →
        scanQuotedValue q ((a :: k') ++ '=' :: (w ++ v ++ c :: tail)) = none := by
      intro q hqv
      apply scanQuotedValue_none_head q (a :: k') _ hkne hkeq
      rw [hdwB, hdv]
      intro x hx
      have hxeq : d = x := by simpa using hx
      subst hxeq
      exact fun hdq => hqv (hdq ▸ hdmem d (by rw [hdv]; simp))
    have husome : scanUnquotedValue ((a :: k') ++ '=' :: (w ++ v ++ c :: tail)) =
        some (a :: k', v.dropWhile cIsSpace) := by
      unfold scanUnquotedValue
      rw [scanKeyEq_eq _ _ hkne hkeq]
      dsimp only
      have hdvall : ∀ x ∈ v.dropWhile cIsSpace,
          (fun x => decide (¬ x = ';' ∧ ¬ x = '#')) x = true := by
        intro x hx
        have hxv := hdmem x hx
        simp only [decide_eq_true_eq]
        exact ⟨fun h => hv1 (h ▸ hxv), fun h => hv2 (h ▸ hxv)⟩
      have htwb : (v.dropWhile cIsSpace ++ c :: tail).takeWhile
          (fun x => decide (¬ x = ';' ∧ ¬ x = '#')) = v.dropWhile cIsSpace := by
        rw [takeWhile_append_all hdvall, List.takeWhile_cons,
          if_neg (by rcases hc with rfl | rfl <;> simp), List.append_nil]
      rw [hdwB, htwb, if_neg (by rw [hdv]; simp)]
    unfold parseValueCascade
    rw [hqfail dquote hvd, Option.none_orElse, hqfail squote hvs, husome]
    dsimp only
    rw [hstripwv, strstrip_dropWhile]

/-- C3: a quoted value containing `;` or `#` is delivered verbatim (the
quoted patterns are tried before the unquoted one), while for an unquoted
value followed by a `;`/`#` comment the delivered value is the text before
the comment character, whitespace-trimmed. -/
theorem C3_quoted_comment_chars_kept_unquoted_comment_stripped :
    (∀ (q a : Char) (k' w v sect0 : List Char) (junk : Char),
      (q = dquote ∨ q = squote) → ¬ a = '#' → ¬ a = ';' → ¬ a = '[' →
      '=' ∉ a :: k' → (∀ c ∈ w, cIsSpace c = true) →
      v ≠ [] → dquote ∉ v → squote ∉ v →
      prv_micro_ini_parse_line ((a :: k') ++ '=' :: (w ++ q :: (v ++ [q])))
          ((a :: k') ++ '=' :: (w ++ q :: (v ++ [q]))).length sect0 junk =
        ⟨.value, sect0, prv_micro_ini_strstrip (a :: k'), prv_micro_ini_strstrip v⟩ ∧
      (';' ∈ v → ';' ∈ prv_micro_ini_strstrip v) ∧
      ('#' ∈ v → '#' ∈ prv_micro_ini_strstrip v)) ∧
    (∀ (a c : Char) (k' w v tail sect0 : List Char) (junk : Char),
      ¬ a = '#' → ¬ a = ';' → ¬ a = '[' → '=' ∉ a :: k' →
      (∀ x ∈ w, cIsSpace x = true) → (c = ';' ∨ c = '#') →
      ';' ∉ v → '#' ∉ v → dquote ∉ v → squote ∉ v →
      prv_micro_ini_parse_line ((a :: k') ++ '=' :: (w ++ v ++ c :: tail))
          ((a :: k') ++ '=' :: (w ++ v ++ c :: tail)).length sect0 junk =
        ⟨.value, sect0, prv_micro_ini_strstrip (a :: k'),
          prv_micro_ini_strstrip (w ++ v)⟩) := by
  constructor
  · intro q a k' w v sect0 junk hq ha1 ha2 ha3 hkeq hw hv hvd hvs
    refine ⟨quotedLine_parse q a k' w v sect0 junk hq ha1 ha2 ha3 hkeq hw hv hvd hvs, ?_, ?_⟩
    · intro hm; exact mem_strstrip_of hm (by decide)
    · intro hm; exact mem_strstrip_of hm (by decide)
  · intro a c k' w v tail sect0 junk ha1 ha2 ha3 hkeq hw hc hv1 hv2 hvd hvs
    exact unquotedLine_parse a c k' w v tail sect0 junk ha1 ha2 ha3 hkeq hw hc hv1 hv2 hvd hvs

theorem C3_witness :
    prv_micro_ini_parse_line (('k' :: []) ++ '=' :: ([' '] ++ dquote :: ("a;b".toList ++ [dquote])))
        (('k' :: []) ++ '=' :: ([' '] ++ dquote :: ("a;b".toList ++ [dquote]))).length []
        (Char.ofNat 0) =
      ⟨.value, [], prv_micro_ini_strstrip ('k' :: []),
        prv_micro_ini_strstrip "a;b".toList⟩ ∧
    prv_micro_ini_parse_line (('k' :: []) ++ '=' :: ([' '] ++ "v1".toList ++ '#' :: " cmt".toList))
        (('k' :: []) ++ '=' :: ([' '] ++ "v1".toList ++ '#' :: " cmt".toList)).length []
        (Char.ofNat 0) =
      ⟨.value, [], prv_micro_ini_strstrip ('k' :: []),
        prv_micro_ini_strstrip ([' '] ++ "v1".toList)⟩ :=
  ⟨(C3_quoted_comment_chars_kept_unquoted_comment_stripped.1 dquote 'k' [] [' ']
      "a;b".toList [] (Char.ofNat 0) (Or.inl rfl) (by decide) (by decide) (by decide)
      (by decide) (by decide) (by decide) (by decide) (by decide)).1,
   C3_quoted_comment_chars_kept_unquoted_comment_stripped.2 'k' '#' [] [' ']
      "v1".toList " cmt".toList [] (Char.ofNat 0) (by decide) (by decide) (by decide)
      (by decide) (by decide) (Or.inr rfl) (by decide) (by decide) (by decide) (by decide)⟩

theorem parseValueCascade_sect (l s0 : List Char) : (parseValueCascade l s0).sect = s0 := by
  unfold parseValueCascade
  split
  · rfl
  · split
    · rfl
    · split
      · rfl
      · rfl

theorem scanSectionName_some_imp {l cap : List Char} (h : scanSectionName l = some cap) :
    cap ≠ [] := by
  unfold scanSectionName at h
  split at h
  · rename_i c rest
    split at h
    · dsimp only at h
      split at h
      · exact absurd h (by simp)
      · rename_i hcap
        injection h with h1
        subst h1
        simpa using hcap
    · exact absurd h (by simp)
  · exact absurd h (by simp)

/-- C5, amended: the section buffer starts empty; a line not classified as
a section header leaves it untouched; a section-header line writes the
trimmed text between `[` and the first `]` when that text is non-empty,
and otherwise (the `[]` line, where the `sscanf` capture fails) leaves the
buffer as it was, merely re-stripping it (a no-op for the already-stripped
contents the loop maintains). -/
theorem C5_section_buffer_amended :
    (∀ (line : List Char) (len : Nat) (sect0 : List Char) (junk : Char),
      (prv_micro_ini_parse_line line len sect0 junk).status = .sect ∨
      (prv_micro_ini_parse_line line len sect0 junk).sect = sect0) ∧
    (∀ (line : List Char) (len : Nat) (sect0 : List Char) (junk : Char),
      (prv_micro_ini_parse_line line len sect0 junk).sect = sect0 ∨
      (prv_micro_ini_parse_line line len sect0 junk).sect = prv_micro_ini_strstrip sect0 ∨
      ((prv_micro_ini_parse_line line len sect0 junk).status = .sect ∧
        ∃ cap, scanSectionName line = some cap ∧ cap ≠ [] ∧
          (prv_micro_ini_parse_line line len sect0 junk).sect =
            prv_micro_ini_strstrip cap)) ∧
    (∀ st : MStream, (initState st).sect = []) ∧
    (micro_ini_load_stream true true true true ⟨0, true, Char.ofNat 0⟩
        ⟨"a=1\n[ s ]\nb=2\n[]\nc=3\n".toList, false⟩).events =
      [Event.value [] ['a'] ['1'], Event.value ['s'] ['b'] ['2'],
        Event.value ['s'] ['c'] ['3']] := by
  refine ⟨?_, ?_, fun _ => rfl, by decide⟩
  · intro line len sect0 junk
    unfold prv_micro_ini_parse_line
    split
    · right; rfl
    · split
      · right; rfl
      · split
        · cases hs : scanSectionName line
          · left; rfl
          · left; rfl
        · right; exact parseValueCascade_sect line sect0
  · intro line len sect0 junk
    unfold prv_micro_ini_parse_line
    split
    · left; rfl
    · split
      · left; rfl
      · split
        · cases hs : scanSectionName line with
          | none => right; left; rfl
          | some cap =>
            right; right
            exact ⟨rfl, cap, rfl, scanSectionName_some_imp hs, rfl⟩
        · left; exact parseValueCascade_sect line sect0

/-!
Multi-line continuation (C4)
-/

/-- Input text for one logical line split over `segs.length` physical
lines: every physical line but the last ends in a backslash. -/
def contJoin : List (List Char) → List Char
  | [] => ['\n']
  | [seg] => seg ++ ['\n']
  | seg :: rest => seg ++ '\\' :: '\n' :: contJoin rest

/-- Replace the line number carried by error events. -/
def renumberEvent (n : Nat) : Event → Event
  | .error l _ => .error l n
  | .value s k v => .value s k v

theorem fgetsTake_line :
    ∀ (cap : Nat) (pre post : List Char), '\n' ∉ pre → pre.length + 1 ≤ cap →
      fgetsTake cap (pre ++ '\n' :: post) = (pre ++ ['\n'], post, false) := by
  intro cap pre
  induction pre generalizing cap with
  | nil =>
    intro post _ hcap
    cases cap with
    | zero => omega
    | succ k => simp [fgetsTake]
  | cons c pre' ih =>
    intro post hnl hcap
    cases cap with
    | zero => omega
    | succ k =>
      have hc : ¬ c = '\n' := by
        intro h
        exact hnl (by rw [h]; simp)
      have hih := ih k post (fun h => hnl (by simp [h])) (by simp at hcap ⊢; omega)
      simp only [List.cons_append, fgetsTake, if_neg hc, List.append_eq, hih]

theorem fgetsModel_line (n : Nat) (pre post : List Char) (hnl : '\n' ∉ pre)
    (hcap : pre.length + 2 ≤ n) :
    fgetsModel n ⟨pre ++ '\n' :: post, false⟩ = some (pre ++ ['\n'], ⟨post, false⟩) := by
  unfold fgetsModel
  rw [if_neg (by simp)]
  rw [show (⟨pre ++ '\n' :: post, false⟩ : MStream).data = pre ++ '\n' :: post from rfl,
    fgetsTake_line (n - 1) pre post hnl (by omega)]
  rfl

theorem trimTrailing_ws_concat {x w : List Char} (hw : ∀ c ∈ w, cIsSpace c = true) :
    trimTrailing (x ++ w) = trimTrailing x := by
  unfold trimTrailing
  rw [List.reverse_append, dropWhile_append_all (by simpa using hw)]

theorem trimTrailing_all_plain {x : List Char} (hx : ∀ c ∈ x, cIsSpace c = false) :
    trimTrailing x = x := by
  unfold trimTrailing
  rw [dropWhile_head_false ?hh, List.reverse_reverse]
  case hh =>
    intro y hy
    exact hx y (by rw [← List.mem_reverse]; exact List.mem_of_mem_head? hy)

theorem leadTrim_no_ws_head (len : Int) (x : List Char)
    (hx : ∀ y ∈ x.head?, cIsSpace y = false) : leadTrim len x = (len, x) := by
  cases x with
  | nil => rfl
  | cons c t =>
    unfold leadTrim
    rw [if_neg]
    intro h
    rw [hx c rfl] at h
    exact absurd h.2 (by simp)

/-- A continuation read: the physical line `seg\` is appended at the
cursor, the trailing backslash is found, and the loop continues with the
cursor on the backslash, classifying nothing. -/
theorem stepCont (junk : Char) (s : LoopState) (acc seg rest : List Char)
    (hline : s.line.take s.last = acc)
    (hlast : s.last = acc.length)
    (hstream : s.stream = ⟨(seg ++ ['\\']) ++ '\n' :: rest, false⟩)
    (hsegp : ∀ c ∈ seg, cIsSpace c = false ∧ ¬ c = '\\')
    (haccp : ∀ c ∈ acc, cIsSpace c = false ∧ ¬ c = '\\')
    (hsize : acc.length + seg.length ≤ 509) :
    microIniStep ⟨2, true, junk⟩ s =
      .next [] { s with line := acc ++ (seg ++ ['\\']), last := (acc ++ seg).length,
                        lineno := s.lineno + 1, stream := ⟨rest, false⟩ } := by
  have hpre_nl : '\n' ∉ seg ++ ['\\'] := by
    intro h
    rcases List.mem_append.mp h with h' | h'
    · exact absurd (hsegp '\n' h').1 (by decide)
    · simp at h'
  have hcap : (seg ++ ['\\']).length + 2 ≤ MICRO_INI_MAX_LINE_LENGTH - s.last := by
    have : MICRO_INI_MAX_LINE_LENGTH = 512 := rfl
    simp only [List.length_append, List.length_cons, List.length_nil, this, hlast]
    omega
  unfold microIniStep
  rw [hstream, fgetsModel_line _ _ _ hpre_nl hcap]
  dsimp only
  rw [hline]
  have hassoc : acc ++ ((seg ++ ['\\']) ++ ['\n']) = (acc ++ (seg ++ ['\\'])) ++ ['\n'] := by
    simp
  rw [hassoc]
  have hplain : ∀ c ∈ acc ++ (seg ++ ['\\']), cIsSpace c = false := by
    intro c hc
    rcases List.mem_append.mp hc with h' | h'
    · exact (haccp c h').1
    · rcases List.mem_append.mp h' with h'' | h''
      · exact (hsegp c h'').1
      · simp at h''
        subst h''
        decide
  have hlast_nl : ((acc ++ (seg ++ ['\\'])) ++ ['\n']).getLastD junk = '\n' := by
    rw [List.getLastD_eq_getLast?, List.getLast?_concat]
    rfl
  rw [if_neg (by simp; omega)]
  rw [if_neg ?hov]
  case hov =>
    intro hcond
    apply hcond.1
    rw [bufGet_last _ _ (by simp), hlast_nl]
  rw [trimTrailing_ws_concat (by decide), trimTrailing_all_plain hplain]
  rw [if_pos ?hml]
  case hml =>
    constructor
    · rw [show acc ++ (seg ++ ['\\']) = (acc ++ seg) ++ ['\\'] from by simp,
        List.getLastD_eq_getLast?, List.getLast?_concat]
      rfl
    · decide
  have hlen2 : (acc ++ (seg ++ ['\\'])).length - 1 = (acc ++ seg).length := by simp
  rw [hlen2]

/-- The final physical line of a continuation (or a plain single line):
the assembled logical line is trimmed and classified once. -/
theorem stepLast (junk : Char) (s : LoopState) (acc seg rest : List Char)
    (hline : s.line.take s.last = acc)
    (hlast : s.last = acc.length)
    (hstream : s.stream = ⟨seg ++ '\n' :: rest, false⟩)
    (hsegp : ∀ c ∈ seg, cIsSpace c = false ∧ ¬ c = '\\')
    (haccp : ∀ c ∈ acc, cIsSpace c = false ∧ ¬ c = '\\')
    (hne : acc ++ seg ≠ [])
    (hsize : acc.length + seg.length ≤ 510) :
    microIniStep ⟨2, true, junk⟩ s =
      microIniDispatch ⟨2, true, junk⟩ s (acc ++ seg) (s.lineno + 1) ⟨rest, false⟩
        (prv_micro_ini_parse_line (acc ++ seg) (acc ++ seg).length s.sect junk) := by
  have hpre_nl : '\n' ∉ seg := by
    intro h
    exact absurd (hsegp '\n' h).1 (by decide)
  have hcap : seg.length + 2 ≤ MICRO_INI_MAX_LINE_LENGTH - s.last := by
    show seg.length + 2 ≤ 512 - s.last
    rw [hlast]
    omega
  have hplain : ∀ c ∈ acc ++ seg, cIsSpace c = false := by
    intro c hc
    rcases List.mem_append.mp hc with h' | h'
    · exact (haccp c h').1
    · exact (hsegp c h').1
  unfold microIniStep
  rw [hstream, fgetsModel_line _ _ _ hpre_nl hcap]
  dsimp only
  rw [hline]
  have hassoc : acc ++ (seg ++ ['\n']) = (acc ++ seg) ++ ['\n'] := by simp
  rw [hassoc]
  have hlen0 : 1 ≤ (acc ++ seg).length := by
    cases h : acc ++ seg with
    | nil => exact absurd h hne
    | cons x t => simp
  have hlen0' : 1 ≤ acc.length + seg.length := by simpa [List.length_append] using hlen0
  rw [if_neg (by simp; omega)]
  rw [if_neg ?hov]
  case hov =>
    intro hcond
    apply hcond.1
    rw [bufGet_last _ _ (by simp), List.getLastD_eq_getLast?, List.getLast?_concat]
    rfl
  rw [trimTrailing_ws_concat (by decide), trimTrailing_all_plain hplain]
  rw [if_neg ?hml]
  case hml =>
    intro hcond
    have h1 := hcond.1
    obtain ⟨x, hx⟩ : ∃ x, (acc ++ seg).getLast? = some x := by
      cases h : acc ++ seg with
      | nil => exact absurd h hne
      | cons y t => exact ⟨(y :: t).getLastD junk, getLast?_cons_getLastD y t junk⟩
    rw [List.getLastD_eq_getLast?, hx] at h1
    have hxm : x ∈ acc ++ seg := List.mem_of_mem_getLast? hx
    rcases List.mem_append.mp hxm with h' | h'
    · exact (haccp x h').2 (by simpa using h1)
    · exact (hsegp x h').2 (by simpa using h1)
  have hso : ∀ (b1 b2 : Bool),
      (if (b1 && flagSet 2 MICRO_INI_FLAG_BOM && b2) = true then 3 else 0) = 0 := by
    intro b1 b2
    rw [if_neg]
    simp [flagSet, MICRO_INI_FLAG_BOM]
  rw [hso, List.drop_zero]
  rw [leadTrim_no_ws_head _ _ ?hh]
  case hh =>
    intro y hy
    exact hplain y (List.mem_of_mem_head? hy)
  dsimp only
  rw [if_neg (by omega)]
  have htn : ((((acc ++ seg).length : Int) - 1)).toNat + 1 = (acc ++ seg).length := by
    omega
  rw [htn]

/-- Net effect of classifying and dispatching the assembled logical line
`text` (at line number `ln`, with `ne` prior errors and section `se`) and
then hitting end of input, with the multi-line flag and the error callback
(configuration `⟨2, true, junk⟩`). -/
def lastLineOut (junk : Char) (text : List Char) (ln ne : Nat) (se : List Char)
    (rds : Nat) : LoopOut :=
  let pl := prv_micro_ini_parse_line text text.length se junk
  match pl.status with
  | .value => ⟨(ne : Int), [Event.value pl.sect pl.key pl.val], rds,
      ⟨[], 0, ln, false, ne, pl.sect, ⟨[], false⟩⟩⟩
  | .error => ⟨((ne + 1 : Nat) : Int), [Event.error text ln], rds,
      ⟨[], 0, ln, false, ne + 1, pl.sect, ⟨[], false⟩⟩⟩
  | _ => ⟨(ne : Int), [], rds, ⟨[], 0, ln, false, ne, pl.sect, ⟨[], false⟩⟩⟩

theorem lastLineOut_succ (junk : Char) (text : List Char) (ln ne : Nat)
    (se : List Char) (rds : Nat) :
    (⟨(lastLineOut junk text ln ne se rds).ret,
      [] ++ (lastLineOut junk text ln ne se rds).events,
      (lastLineOut junk text ln ne se rds).reads + 1,
      (lastLineOut junk text ln ne se rds).final⟩ : LoopOut) =
    lastLineOut junk text ln ne se (rds + 1) := by
  unfold lastLineOut
  dsimp only
  split
  · rfl
  · rfl
  · rfl

theorem microIniLoop_empty_stream (cfg : IniConfig) (fuel : Nat) (s : LoopState)
    (hfuel : 1 ≤ fuel) (hstream : s.stream = ⟨[], false⟩) :
    microIniLoop cfg fuel s = ⟨(s.numErrors : Int), [], 1, s⟩ := by
  cases fuel with
  | zero => omega
  | succ k =>
    apply microIniLoop_eof
    unfold microIniStep
    rw [hstream]
    rfl

/-- Consuming the last physical line of the input: the assembled line is
classified, dispatched, and the following read hits end of input. -/
theorem loopLastLine (junk : Char) (fuel : Nat) (s : LoopState) (acc seg : List Char)
    (hline : s.line.take s.last = acc) (hlast : s.last = acc.length)
    (hstream : s.stream = ⟨seg ++ '\n' :: [], false⟩)
    (hsegp : ∀ c ∈ seg, cIsSpace c = false ∧ ¬ c = '\\')
    (haccp : ∀ c ∈ acc, cIsSpace c = false ∧ ¬ c = '\\')
    (hne : acc ++ seg ≠ []) (hsize : acc.length + seg.length ≤ 510)
    (hfuel : 2 ≤ fuel) :
    microIniLoop ⟨2, true, junk⟩ fuel s =
      lastLineOut junk (acc ++ seg) (s.lineno + 1) s.numErrors s.sect 2 := by
  cases fuel with
  | zero => omega
  | succ k =>
    have hstep := stepLast junk s acc seg [] hline hlast hstream hsegp haccp hne hsize
    cases hst : (prv_micro_ini_parse_line (acc ++ seg) (acc ++ seg).length s.sect junk).status
    case value =>
      have hd : microIniDispatch ⟨2, true, junk⟩ s (acc ++ seg) (s.lineno + 1) ⟨[], false⟩
          (prv_micro_ini_parse_line (acc ++ seg) (acc ++ seg).length s.sect junk) =
          .next [Event.value
              (prv_micro_ini_parse_line (acc ++ seg) (acc ++ seg).length s.sect junk).sect
              (prv_micro_ini_parse_line (acc ++ seg) (acc ++ seg).length s.sect junk).key
              (prv_micro_ini_parse_line (acc ++ seg) (acc ++ seg).length s.sect junk).val]
            ⟨[], 0, s.lineno + 1, false, s.numErrors,
              (prv_micro_ini_parse_line (acc ++ seg) (acc ++ seg).length s.sect junk).sect,
              ⟨[], false⟩⟩ := by
        unfold microIniDispatch
        rw [hst]
      rw [microIniLoop_next _ k _ _ _ (hstep.trans hd),
        microIniLoop_empty_stream _ k _ (by omega) rfl]
      unfold lastLineOut
      dsimp only
      rw [hst]
      simp
    case error =>
      have hd : microIniDispatch ⟨2, true, junk⟩ s (acc ++ seg) (s.lineno + 1) ⟨[], false⟩
          (prv_micro_ini_parse_line (acc ++ seg) (acc ++ seg).length s.sect junk) =
          .next [Event.error (acc ++ seg) (s.lineno + 1)]
            ⟨[], 0, s.lineno + 1, false, s.numErrors + 1,
              (prv_micro_ini_parse_line (acc ++ seg) (acc ++ seg).length s.sect junk).sect,
              ⟨[], false⟩⟩ := by
        unfold microIniDispatch
        rw [hst]
        dsimp only
        rw [if_neg (by simp [flagSet, MICRO_INI_FLAG_STOP_ON_FIRST_ERROR]; decide)]
        rfl
      rw [microIniLoop_next _ k _ _ _ (hstep.trans hd),
        microIniLoop_empty_stream _ k _ (by omega) rfl]
      unfold lastLineOut
      dsimp only
      rw [hst]
      simp
    case unprocessed =>
      have hd : microIniDispatch ⟨2, true, junk⟩ s (acc ++ seg) (s.lineno + 1) ⟨[], false⟩
          (prv_micro_ini_parse_line (acc ++ seg) (acc ++ seg).length s.sect junk) =
          .next [] ⟨[], 0, s.lineno + 1, false, s.numErrors,
              (prv_micro_ini_parse_line (acc ++ seg) (acc ++ seg).length s.sect junk).sect,
              ⟨[], false⟩⟩ := by
        unfold microIniDispatch
        rw [hst]
      rw [microIniLoop_next _ k _ _ _ (hstep.trans hd),
        microIniLoop_empty_stream _ k _ (by omega) rfl]
      unfold lastLineOut
      dsimp only
      rw [hst]
      simp
    case empty =>
      have hd : microIniDispatch ⟨2, true, junk⟩ s (acc ++ seg) (s.lineno + 1) ⟨[], false⟩
          (prv_micro_ini_parse_line (acc ++ seg) (acc ++ seg).length s.sect junk) =
          .next [] ⟨[], 0, s.lineno + 1, false, s.numErrors,
              (prv_micro_ini_parse_line (acc ++ seg) (acc ++ seg).length s.sect junk).sect,
              ⟨[], false⟩⟩ := by
        unfold microIniDispatch
        rw [hst]
      rw [microIniLoop_next _ k _ _ _ (hstep.trans hd),
        microIniLoop_empty_stream _ k _ (by omega) rfl]
      unfold lastLineOut
      dsimp only
      rw [hst]
      simp
    case comment =>
      have hd : microIniDispatch ⟨2, true, junk⟩ s (acc ++ seg) (s.lineno + 1) ⟨[], false⟩
          (prv_micro_ini_parse_line (acc ++ seg) (acc ++ seg).length s.sect junk) =
          .next [] ⟨[], 0, s.lineno + 1, false, s.numErrors,
              (prv_micro_ini_parse_line (acc ++ seg) (acc ++ seg).length s.sect junk).sect,
              ⟨[], false⟩⟩ := by
        unfold microIniDispatch
        rw [hst]
      rw [microIniLoop_next _ k _ _ _ (hstep.trans hd),
        microIniLoop_empty_stream _ k _ (by omega) rfl]
      unfold lastLineOut
      dsimp only
      rw [hst]
      simp
    case sect =>
      have hd : microIniDispatch ⟨2, true, junk⟩ s (acc ++ seg) (s.lineno + 1) ⟨[], false⟩
          (prv_micro_ini_parse_line (acc ++ seg) (acc ++ seg).length s.sect junk) =
          .next [] ⟨[], 0, s.lineno + 1, false, s.numErrors,
              (prv_micro_ini_parse_line (acc ++ seg) (acc ++ seg).length s.sect junk).sect,
              ⟨[], false⟩⟩ := by
        unfold microIniDispatch
        rw [hst]
      rw [microIniLoop_next _ k _ _ _ (hstep.trans hd),
        microIniLoop_empty_stream _ k _ (by omega) rfl]
      unfold lastLineOut
      dsimp only
      rw [hst]
      simp

/-- Running the loop over one logical line made of `segs.length` physical
lines (all but the last backslash-continued): the line is assembled and
classified exactly once, at line number `lineno + segs.length`. -/
theorem loopCont (junk : Char) :
    ∀ (segs : List (List Char)) (fuel : Nat) (s : LoopState) (acc : List Char),
      segs ≠ [] →
      (∀ seg ∈ segs, seg ≠ [] ∧ ∀ c ∈ seg, cIsSpace c = false ∧ ¬ c = '\\') →
      (∀ c ∈ acc, cIsSpace c = false ∧ ¬ c = '\\') →
      s.line.take s.last = acc →
      s.last = acc.length →
      s.stream = ⟨contJoin segs, false⟩ →
      acc.length + segs.join.length ≤ 509 →
      segs.length + 1 ≤ fuel →
      microIniLoop ⟨2, true, junk⟩ fuel s =
        lastLineOut junk (acc ++ segs.join) (s.lineno + segs.length) s.numErrors s.sect
          (segs.length + 1) := by
  intro segs
  induction segs with
  | nil => intro _ _ _ h; exact absurd rfl h
  | cons seg rest ih =>
    intro fuel s acc _ hplain haccp hline hlast hstream hsize hfuel
    have hsegne := (hplain seg (by simp)).1
    have hsegp := (hplain seg (by simp)).2
    cases rest with
    | nil =>
      have hout := loopLastLine junk fuel s acc seg hline hlast
        (by rw [hstream]; rfl) hsegp haccp
        (by
          intro h
          exact hsegne (by cases acc <;> simp_all)
        )
        (by
          have : ([seg] : List (List Char)).join = seg ++ [] := rfl
          rw [this] at hsize
          simp at hsize
          omega)
        (by simpa using hfuel)
      rw [hout]
      have h1 : acc ++ seg = acc ++ ([seg] : List (List Char)).join := by simp
      rw [h1]
      rfl
    | cons seg2 t =>
      have hcj : contJoin (seg :: seg2 :: t) = (seg ++ ['\\']) ++ '\n' :: contJoin (seg2 :: t) := by
        show seg ++ '\\' :: '\n' :: contJoin (seg2 :: t) = _
        simp
      have hjoin : (seg :: seg2 :: t).join = seg ++ (seg2 :: t).join := rfl
      cases fuel with
      | zero => simp at hfuel
      | succ k =>
        have hsize' : acc.length + seg.length ≤ 509 := by
          rw [hjoin] at hsize
          simp [List.length_append] at hsize
          omega
        have hstep := stepCont junk s acc seg (contJoin (seg2 :: t)) hline hlast
          (by rw [hstream, hcj]) hsegp haccp hsize'
        rw [microIniLoop_next _ k _ _ _ hstep]
        have hih := ih k
          { s with line := acc ++ (seg ++ ['\\']), last := (acc ++ seg).length,
                   lineno := s.lineno + 1, stream := ⟨contJoin (seg2 :: t), false⟩ }
          (acc ++ seg) (by simp)
          (fun sg hsg => hplain sg (by simp [hsg]))
          (by
            intro c hc
            rcases List.mem_append.mp hc with h' | h'
            · exact haccp c h'
            · exact hsegp c h')
          (by
            show (acc ++ (seg ++ ['\\'])).take (acc ++ seg).length = acc ++ seg
            rw [show acc ++ (seg ++ ['\\']) = (acc ++ seg) ++ ['\\'] from by simp]
            exact List.take_left _ _)
          rfl rfl
          (by
            rw [hjoin] at hsize
            simp [List.length_append] at hsize ⊢
            omega)
          (by simp at hfuel ⊢; omega)
        rw [hih, lastLineOut_succ]
        have h1 : (acc ++ seg) ++ (seg2 :: t).join = acc ++ (seg :: seg2 :: t).join := by
          rw [hjoin]; simp
        have h2 : s.lineno + 1 + (seg2 :: t).length = s.lineno + (seg :: seg2 :: t).length := by
          simp; omega
        have h3 : (seg2 :: t).length + 1 + 1 = (seg :: seg2 :: t).length + 1 := by simp
        rw [h1, h2, h3]

theorem contJoin_length :
    ∀ (segs : List (List Char)), (∀ seg ∈ segs, seg ≠ []) →
      segs.length ≤ (contJoin segs).length := by
  intro segs
  induction segs with
  | nil => intro _; simp [contJoin]
  | cons seg rest ih =>
    intro h
    cases rest with
    | nil =>
      have := h seg (by simp)
      cases seg with
      | nil => simp at this
      | cons c t => simp [contJoin]
    | cons seg2 t =>
      have hrec := ih (fun sg hsg => h sg (by simp [hsg]))
      show (seg :: seg2 :: t).length ≤ (seg ++ '\\' :: '\n' :: contJoin (seg2 :: t)).length
      simp only [List.length_cons, List.length_append]
      simp at hrec ⊢
      omega

/-- C4, amended: with the multi-line flag, a logical line split across
`segs.length` physical lines by trailing backslashes is classified exactly
once, with the same classification, key, value, error report and return
value as the same text on one physical line; the line number reported for
the logical line is that of the LAST physical line of the continuation
(`segs.length`), not the first as the original claim stated. -/
theorem C4_amended_multiline_joins (segs : List (List Char)) (junk : Char)
    (hne : segs ≠ [])
    (hplain : ∀ seg ∈ segs, seg ≠ [] ∧ ∀ c ∈ seg, cIsSpace c = false ∧ ¬ c = '\\')
    (hlen : segs.join.length ≤ 509) :
    (micro_ini_load_stream true true true true ⟨MICRO_INI_FLAG_MULTILINE, true, junk⟩
        ⟨contJoin segs, false⟩).events =
      ((micro_ini_load_stream true true true true ⟨MICRO_INI_FLAG_MULTILINE, true, junk⟩
        ⟨segs.join ++ ['\n'], false⟩).events).map (renumberEvent segs.length) ∧
    (micro_ini_load_stream true true true true ⟨MICRO_INI_FLAG_MULTILINE, true, junk⟩
        ⟨contJoin segs, false⟩).ret =
      (micro_ini_load_stream true true true true ⟨MICRO_INI_FLAG_MULTILINE, true, junk⟩
        ⟨segs.join ++ ['\n'], false⟩).ret ∧
    (micro_ini_load_stream true true true true ⟨MICRO_INI_FLAG_MULTILINE, true, junk⟩
        ⟨contJoin segs, false⟩).final.sect =
      (micro_ini_load_stream true true true true ⟨MICRO_INI_FLAG_MULTILINE, true, junk⟩
        ⟨segs.join ++ ['\n'], false⟩).final.sect := by
  have hjoin_ne : segs.join ≠ [] := by
    cases segs with
    | nil => exact absurd rfl hne
    | cons s0 rest =>
      have h0 := (hplain s0 (by simp)).1
      cases s0 with
      | nil => exact absurd rfl h0
      | cons c t => simp
  have hsegne : ∀ seg ∈ segs, seg ≠ [] := fun sg hsg => (hplain sg hsg).1
  have hmulti : micro_ini_load_stream true true true true
      ⟨MICRO_INI_FLAG_MULTILINE, true, junk⟩ ⟨contJoin segs, false⟩ =
      microIniLoop ⟨2, true, junk⟩ ((contJoin segs).length + 1)
        (initState ⟨contJoin segs, false⟩) := rfl
  have hsingle : micro_ini_load_stream true true true true
      ⟨MICRO_INI_FLAG_MULTILINE, true, junk⟩ ⟨segs.join ++ ['\n'], false⟩ =
      microIniLoop ⟨2, true, junk⟩ ((segs.join ++ ['\n']).length + 1)
        (initState ⟨segs.join ++ ['\n'], false⟩) := rfl
  have hm := loopCont junk segs ((contJoin segs).length + 1)
    (initState ⟨contJoin segs, false⟩) [] hne hplain (by simp) rfl rfl rfl
    (by simpa using hlen)
    (by have := contJoin_length segs hsegne; omega)
  have hs := loopCont junk [segs.join] ((segs.join ++ ['\n']).length + 1)
    (initState ⟨segs.join ++ ['\n'], false⟩) [] (by simp)
    (by
      intro sg hsg
      have : sg = segs.join := by simpa using hsg
      subst this
      refine ⟨hjoin_ne, ?_⟩
      intro c hc
      obtain ⟨l, hl, hcl⟩ := List.mem_join.mp hc
      exact (hplain l hl).2 c hcl)
    (by simp) rfl rfl rfl
    (by simpa using hlen)
    (by simp)
  rw [hmulti, hsingle, hm, hs]
  dsimp only [initState]
  have hj1 : ([] : List Char) ++ segs.join = segs.join := by simp
  have hj2 : ([] : List Char) ++ ([segs.join] : List (List Char)).join = segs.join := by
    simp
  rw [hj1, hj2]
  simp only [Nat.zero_add, List.length_cons, List.length_nil]
  unfold lastLineOut
  dsimp only
  cases hst : (prv_micro_ini_parse_line segs.join segs.join.length [] junk).status <;>
    simp [renumberEvent]

theorem C4_witness :
    (micro_ini_load_stream true true true true
        ⟨MICRO_INI_FLAG_MULTILINE, true, Char.ofNat 0⟩
        ⟨contJoin [['k'], ['=', 'v']], false⟩).events =
      ((micro_ini_load_stream true true true true
        ⟨MICRO_INI_FLAG_MULTILINE, true, Char.ofNat 0⟩
        ⟨([['k'], ['=', 'v']] : List (List Char)).join ++ ['\n'], false⟩).events).map
        (renumberEvent 2) :=
  (C4_amended_multiline_joins [['k'], ['=', 'v']] (Char.ofNat 0) (by decide) (by decide)
    (by decide)).1
